import Mathlib

/-!
# mpiBlast: chunker, coordinator, sink and worker relay

A shallow embedding of `src/blast/mpiBlast.c`.

* Bytes are natural numbers (a file byte is a value below 256; nothing in the
  program depends on that bound, so the definitions range over all naturals).
* A C string is represented by its content, the bytes before the terminating
  NUL; `cstr` reads a raw buffer as a C string.
* A `FILE` is the whole content of the stream together with the bytes that
  have not been read yet; the stream position is the difference of the two
  lengths.
* `exit` is the result `Outcome.fatal`.
-/

namespace MpiBlast

/-! ## Constants of the program -/

abbrev Byte := Nat

abbrev BEGIN_TAG : Nat := 1
abbrev MESSAGE_TAG : Nat := 2
abbrev END_TAG : Nat := 3
abbrev COMPLETE_TAG : Nat := 99

abbrev SCHEDULER_PROCESS : Nat := 0
abbrev WRITER_PROCESS : Nat := 1

abbrev BUFFER_SIZE : Nat := 20000
abbrev BLOCK_SIZE : Nat := 20000

/-- The line break character. -/
abbrev NL : Byte := 10
/-- The header sentinel, the character `>`. -/
abbrev GT : Byte := 62
/-- Largest value of the C type `int`. -/
abbrev INT_MAX : Nat := 2147483647

/-- The ways the chunker terminates the process. -/
inductive Fatal where
  | headerIncomplete
  | incompleteLastLine
  | reallocFailed
deriving DecidableEq, Repr

/-- Result of running a piece of the program: `fatal` is a call of `exit`,
`diverge` is the loop budget of the embedding running out (a call of
`buildNewString` never does, see `buildNewString_returns`), `ok` is a normal
return. -/
inductive Outcome (α : Type) where
  | fatal (e : Fatal) : Outcome α
  | diverge : Outcome α
  | ok (a : α) : Outcome α
deriving DecidableEq, Repr

/-- The content of a raw buffer read as a C string: the bytes before the
first NUL. -/
def cstr (buf : List Byte) : List Byte := buf.takeWhile (fun b => b ≠ 0)

/-! ## The query stream -/

/-- A stream opened for reading: all of its bytes, and the bytes not yet
read. -/
structure FILE where
  data : List Byte
  rest : List Byte
deriving DecidableEq, Repr

/-- Opens a stream at its first byte. -/
def fopen (data : List Byte) : FILE := { data := data, rest := data }

def ftell (fp : FILE) : Nat := fp.data.length - fp.rest.length

def fseek (fp : FILE) (offset : Nat) : FILE := { fp with rest := fp.data.drop offset }

/-! ## readLine -/

/-- The first loop of `readLine`. `buf` holds the `i` characters stored so far
and the second list is the unread part of the stream; each step is one
`getc`. Returns the buffer, the last character read (`none` is `EOF`) and the
unread part. -/
def readLoop (lim : Nat) : List Byte → List Byte → List Byte × Option Byte × List Byte
  | buf, [] => (buf, none, [])
  | buf, b :: r =>
    if b ≠ NL ∧ buf.length < lim then readLoop lim (buf ++ [b]) r else (buf, some b, r)

/-- The body of the loop that discards the rest of a header: reads until a
line break, and exits the process at `EOF`. -/
def skipToNewline : List Byte → Except Fatal (List Byte)
  | [] => .error .headerIncomplete
  | b :: r => if b = NL then .ok r else skipToNewline r

/-- The loop `while (c2 != '\n')` of `readLine`, entered with `c2 = c`. -/
def discardHeader (c : Option Byte) (rest : List Byte) : Except Fatal (List Byte) :=
  if c = some NL then .ok rest else skipToNewline rest

/-- What `readLine` hands back: the characters stored in `buf` before the
terminating NUL that it writes, the character it returns (`none` is `EOF`),
and the unread part of the stream. -/
structure Line where
  buf : List Byte
  c : Option Byte
  rest : List Byte
deriving DecidableEq, Repr

/-- The end of `readLine`: the sanity check and the return. -/
def readLineEnd (buf : List Byte) (c : Option Byte) (rest : List Byte) : Except Fatal Line :=
  if c = none ∧ buf.length > 0 then .error .incompleteLastLine
  else .ok { buf := buf, c := c, rest := rest }

/-- The function `readLine(fp, buf, bufLen)` on the unread part of the stream.
`bufLen` is at least 3 in the program (its one caller passes 16384), so that
`buf[0]` is a character of this line whenever the limit is reached. The value
stored for `EOF` is the byte 255. -/
def readLine (rest : List Byte) (bufLen : Nat) : Except Fatal Line :=
  match readLoop (bufLen - 2) [] rest with
  | (buf, c, rest1) =>
    if buf.length ≥ bufLen - 2 then
      if buf.head? = some GT then
        match discardHeader c rest1 with
        | .error e => .error e
        | .ok rest2 => readLineEnd buf c rest2
      else readLineEnd (buf ++ [c.getD 255]) c rest1
    else readLineEnd buf c rest1

/-! ## buildNewString -/

/-- The local variables of `buildNewString` that live across iterations. -/
structure Locals where
  finalString : List Byte
  querysRead : Nat
  bufferOffsetForLastQueryStart : Nat
  fileOffsetForLastQueryStart : Nat
  allocSize : Nat
deriving DecidableEq, Repr

/-- What `buildNewString` returns: the string (`none` is `NULL`), the value
left in `*amountRead` when a string is returned, and the stream. -/
structure Built where
  str : Option (List Byte)
  amountRead : Nat
  fp : FILE
deriving DecidableEq, Repr

/-- The first character of the buffer; it is the terminating NUL when nothing
was stored. -/
def bufHead (buf : List Byte) : Byte := buf.headD 0

/-- The passes of the loop
`while ((strlen(finalString) + strlen(buf) + 2) > allocSize)` that double
`allocSize`, which are the passes taken when `querysRead > 1` fails; nothing
else changes in that loop, so it either returns at its first pass or only
doubles. `allocSize` is an `int`: a doubling beyond `INT_MAX` leaves the
defined behaviour of C, and with the usual wrap-around `realloc` is asked for
a negative size and fails, which ends the process (`none`). At most 31
doublings of a positive `int` stay in range; the first argument bounds the
passes. Memory is taken to suffice otherwise. -/
def growAlloc (need : Nat) : Nat → Nat → Option Nat
  | 0, _ => none
  | k + 1, allocSize =>
    if need > allocSize then
      if allocSize * 2 > INT_MAX then none else growAlloc need k (allocSize * 2)
    else some allocSize

/-- The loop `while (1)` of `buildNewString`; the first argument bounds the
number of iterations. The line buffer has `buflen = 16384` bytes; `need` is
`strlen(finalString) + strlen(buf) + 2`; the
string `finalString` is cut with `take` where the program stores a NUL; the
line and `"\n"` are appended where it calls `strcat`. -/
def buildLoop : Nat → FILE → Locals → Outcome Built
  | 0, _, _ => .diverge
  | fuel + 1, fp, st =>
    let offset := ftell fp
    match readLine fp.rest 16384 with
    | .error e => .fatal e
    | .ok ln =>
      let fp1 : FILE := { fp with rest := ln.rest }
      if ln.c = none then
        if st.querysRead > 0 then
          .ok { str := some st.finalString, amountRead := st.querysRead, fp := fp1 }
        else .ok { str := none, amountRead := 0, fp := fp1 }
      else
        let need := st.finalString.length + (cstr ln.buf).length + 2
        if need > st.allocSize ∧ st.querysRead > 1 then
          if bufHead ln.buf ≠ GT then
            .ok { str := some (st.finalString.take st.bufferOffsetForLastQueryStart),
                  amountRead := st.querysRead,
                  fp := fseek fp1 st.fileOffsetForLastQueryStart }
          else
            .ok { str := some st.finalString, amountRead := st.querysRead,
                  fp := fseek fp1 offset }
        else
          match growAlloc need 32 st.allocSize with
          | none => .fatal .reallocFailed
          | some allocSize =>
            let isHeader := bufHead ln.buf = GT
            buildLoop fuel fp1
              { finalString := st.finalString ++ cstr ln.buf ++ [NL],
                querysRead := if isHeader then st.querysRead + 1 else st.querysRead,
                bufferOffsetForLastQueryStart :=
                  if isHeader then st.finalString.length
                  else st.bufferOffsetForLastQueryStart,
                fileOffsetForLastQueryStart :=
                  if isHeader then offset else st.fileOffsetForLastQueryStart,
                allocSize := allocSize }

/-- The function `buildNewString(fp, &amountRead)`. Every iteration of its
loop that does not return reads at least one byte, so one more iteration than
there are unread bytes is enough. -/
def buildNewString (fp : FILE) : Outcome Built :=
  buildLoop (fp.rest.length + 1) fp
    { finalString := [], querysRead := 0, bufferOffsetForLastQueryStart := 0,
      fileOffsetForLastQueryStart := 0, allocSize := BLOCK_SIZE }

/-- The blocks the coordinator obtains by calling `buildNewString` again and
again until it returns `NULL`; the first argument bounds the number of
calls. -/
def blocksUntilNull : Nat → FILE → Outcome (List (List Byte))
  | 0, _ => .diverge
  | fuel + 1, fp =>
    match buildNewString fp with
    | .fatal e => .fatal e
    | .diverge => .diverge
    | .ok r =>
      match r.str with
      | none => .ok []
      | some block =>
        match blocksUntilNull fuel r.fp with
        | .ok blocks => .ok (block :: blocks)
        | other => other

/-- All blocks of a query source, from its first byte. A call that returns a
block consumes at least one byte, so one more call than there are bytes is
enough (see `allBlocks_returns`). -/
def allBlocks (src : List Byte) : Outcome (List (List Byte)) :=
  blocksUntilNull (src.length + 1) (fopen src)

/-! ## The coordinator (`scheduler`) -/

/-- A message handed to the transport: destination role, tag, bytes. -/
structure Msg where
  dest : Nat
  tag : Nat
  payload : List Byte
deriving DecidableEq, Repr

/-- The loop `while (cntSent < messageLength)` of `scheduler`, started with
`cntSent`: each pass sends at most `BUFFER_SIZE` bytes of `toSend`. A pass
sends at least one byte, so `messageLength` passes are enough; the first
argument bounds the passes. -/
def sendLoop (toSend : List Byte) (messageLength sender : Nat) : Nat → Nat → List Msg
  | 0, _ => []
  | fuel + 1, cntSent =>
    if cntSent < messageLength then
      let n := if messageLength - cntSent ≥ BUFFER_SIZE then BUFFER_SIZE
               else messageLength - cntSent
      { dest := sender, tag := MESSAGE_TAG, payload := (toSend.drop cntSent).take n } ::
        sendLoop toSend messageLength sender fuel (cntSent + n)
    else []

/-- What `scheduler` sends for a block: the begin message, the data
messages, the end message. The begin, end and complete messages carry the one
byte of the empty string. -/
def sendBlock (toSend : List Byte) (sender : Nat) : List Msg :=
  { dest := sender, tag := BEGIN_TAG, payload := [0] } ::
    (sendLoop toSend toSend.length sender toSend.length 0 ++
      [{ dest := sender, tag := END_TAG, payload := [0] }])

/-- How a run of `scheduler` ends: it returned, it waits in `MPI_Recv` for a
request that does not come, the chunker exited the process, or the loop
budget of the chunker ran out. -/
inductive SchedEnd where
  | returned
  | waiting
  | exited (e : Fatal)
  | diverged
deriving DecidableEq, Repr

/-- The loop `while (finishedWorkers < size - 2)` of `scheduler`. The first
list holds the senders of the ready messages in the order `MPI_Recv` delivers
them. Returns the messages sent, in order, and how the run ends; the message
to the writer process is sent after the loop. -/
def schedLoop (size : Nat) : List Nat → FILE → Nat → List Msg × SchedEnd
  | [], _, finishedWorkers =>
    if finishedWorkers < size - 2 then ([], .waiting)
    else ([{ dest := WRITER_PROCESS, tag := COMPLETE_TAG, payload := [0] }], .returned)
  | sender :: reqs, fp, finishedWorkers =>
    if finishedWorkers < size - 2 then
      match buildNewString fp with
      | .fatal e => ([], .exited e)
      | .diverge => ([], .diverged)
      | .ok r =>
        match r.str with
        | none =>
          let next := schedLoop size reqs r.fp (finishedWorkers + 1)
          ({ dest := sender, tag := COMPLETE_TAG, payload := [0] } :: next.1, next.2)
        | some toSend =>
          let next := schedLoop size reqs r.fp finishedWorkers
          (sendBlock toSend sender ++ next.1, next.2)
    else ([{ dest := WRITER_PROCESS, tag := COMPLETE_TAG, payload := [0] }], .returned)

/-- The function `scheduler(filename, size)` on the content of the file. -/
def scheduler (src : List Byte) (size : Nat) (reqs : List Nat) : List Msg × SchedEnd :=
  schedLoop size reqs (fopen src) 0

/-! ## The sink (`writer`) -/

/-- A message as the receiver sees it from one sender: tag and bytes. -/
structure Frame where
  tag : Nat
  payload : List Byte
deriving DecidableEq, Repr

/-- The effect of `MPI_Recv` on the receive buffer: the bytes of the message
replace the start of the buffer. -/
def recvInto (buffer payload : List Byte) : List Byte :=
  payload ++ buffer.drop payload.length

/-- What `fprintf(fp, "%s", buffer)` appends: the bytes before the first
NUL. With no NUL in the buffer the read runs past its end, which leaves the
behaviour undefined (`none`). -/
def fprintfS (buffer : List Byte) : Option (List Byte) :=
  if 0 ∈ buffer then some (cstr buffer) else none

/-- How a run of `writer` ends: it returned, it waits in `MPI_Recv`, or it
read past the end of its buffer. -/
inductive SinkEnd where
  | returned
  | waiting
  | undefinedRead
deriving DecidableEq, Repr

/-- The state of `writer`: the output file, the receive buffer, and the
messages consumed so far as (sender, tag). -/
structure Sink where
  file : List Byte
  buffer : List Byte
  log : List (Nat × Nat)
deriving DecidableEq, Repr

/-- The loop `while (tag != END_TAG)` of `writer`, on the queue of messages
from `sender`. Returns what is left of the queue. -/
def sessionLoop (sender : Nat) : List Frame → Nat → Sink → List Frame × Sink × Option SinkEnd
  | [], tag, st => if tag ≠ END_TAG then ([], st, some .waiting) else ([], st, none)
  | f :: q, tag, st =>
    if tag ≠ END_TAG then
      let buffer := recvInto st.buffer f.payload
      let log := st.log ++ [(sender, f.tag)]
      if f.tag = MESSAGE_TAG then
        match fprintfS buffer with
        | none => (q, { st with buffer := buffer, log := log }, some .undefinedRead)
        | some out => sessionLoop sender q f.tag { file := st.file ++ out, buffer := buffer, log := log }
      else sessionLoop sender q f.tag { st with buffer := buffer, log := log }
    else (f :: q, st, none)

/-- The loop `while (1)` of `writer`. The transport keeps one queue per
sender; the first list names, for each receive from any source, the sender
whose oldest message is delivered. -/
def writerLoop : List Nat → (Nat → List Frame) → Sink → Sink × SinkEnd
  | [], _, st => (st, .waiting)
  | sender :: choices, queues, st =>
    match queues sender with
    | [] => (st, .waiting)
    | f :: q =>
      let st1 : Sink :=
        { st with buffer := recvInto st.buffer f.payload, log := st.log ++ [(sender, f.tag)] }
      if sender = SCHEDULER_PROCESS then (st1, .returned)
      else
        match sessionLoop sender q f.tag st1 with
        | (q1, st2, none) => writerLoop choices (Function.update queues sender q1) st2
        | (_, st2, some e) => (st2, e)

/-! ## The worker relay (`worker`) -/

/-- The loop `while (bytesRead > 0)` of `worker`: each chunk read from the
pipe is stored at the start of the buffer, a NUL is stored after it, and the
whole buffer of `BUFFER_SIZE` bytes is sent. The buffer has `BUFFER_SIZE`
bytes, so for a chunk of that size the NUL falls outside it and is not part of
what is sent. -/
def forwardLoop : List (List Byte) → List Byte → List Frame
  | [], _ => []
  | chunk :: chunks, buffer =>
    let buffer1 := (recvInto buffer chunk).set chunk.length 0
    { tag := MESSAGE_TAG, payload := buffer1 } :: forwardLoop chunks buffer1

/-- The messages `worker` sends to the writer process for one block. -/
def workerSession (chunks : List (List Byte)) (buffer : List Byte) : List Frame :=
  { tag := BEGIN_TAG, payload := [0] } ::
    (forwardLoop chunks buffer ++ [{ tag := END_TAG, payload := [0] }])

/-! ## Vocabulary of the specification -/

/-- Lines, each followed by its line break. -/
def renderLines : List (List Byte) → List Byte
  | [] => []
  | l :: ls => l ++ NL :: renderLines ls

/-- A record of the query format: the header line and the payload lines,
without their line breaks. -/
structure Record where
  header : List Byte
  payload : List (List Byte)
deriving DecidableEq, Repr

/-- The bytes of a record in the source. -/
def Record.bytes (r : Record) : List Byte := renderLines (r.header :: r.payload)

/-- The bytes of a sequence of records. -/
def renderRecords : List Record → List Byte
  | [] => []
  | r :: rs => r.bytes ++ renderRecords rs

/-- A line the line reader returns whole and the block stores unchanged: it
is shorter than the maximum `bufLen - 2 = 16382` and has no line break and no
NUL inside. -/
def GoodLine (l : List Byte) : Prop := l.length < 16382 ∧ NL ∉ l ∧ 0 ∉ l

instance (l : List Byte) : Decidable (GoodLine l) := by
  unfold GoodLine; infer_instance

/-- A whole record: the header starts with `>`, no payload line does, and
every line is a good line. -/
def Record.WellFormed (r : Record) : Prop :=
  r.header.head? = some GT ∧ GoodLine r.header ∧
    ∀ l ∈ r.payload, GoodLine l ∧ l.head? ≠ some GT

instance (r : Record) : Decidable r.WellFormed := by
  unfold Record.WellFormed; infer_instance

/-- A well-formed Session as a worker sends it: one begin message, the data
messages, one end message; each with its bytes. -/
structure Session where
  first : List Byte
  datas : List (List Byte)
  last : List Byte
deriving DecidableEq, Repr

/-- The messages of a Session, in the order sent. -/
def Session.frames (s : Session) : List Frame :=
  { tag := BEGIN_TAG, payload := s.first } ::
    (s.datas.map (fun p => { tag := MESSAGE_TAG, payload := p }) ++
      [{ tag := END_TAG, payload := s.last }])

/-- The queues of the transport when every worker sends the Sessions `sess`
and the coordinator sends the messages `cq`. -/
def queuesOf (sess : Nat → List Session) (cq : List Frame) : Nat → List Frame :=
  fun sender =>
    if sender = SCHEDULER_PROCESS then cq
    else ((sess sender).map Session.frames).flatten

/-- What the sink consumes of a Session it consumes whole, as (sender, tag):
the begin message, the data messages, the end message, all of one sender. -/
def sessionLog (sender : Nat) (s : Session) : List (Nat × Nat) :=
  (sender, BEGIN_TAG) ::
    (s.datas.map (fun _ => (sender, MESSAGE_TAG)) ++ [(sender, END_TAG)])

/-- The payload of a data message as the specification has it appended:
verbatim. -/
def verbatim (p : List Byte) : List Byte := p

/-- The sink of the specification, on the output file and the log of what it
consumed: each receive from any source either delivers the message of the
coordinator, the completion signal, which ends the run with nothing written,
or opens the next Session of the chosen worker; that Session is consumed
whole, from its first message to its end message, and for each of its data
messages, in receipt order, `written payload` is appended to the file. With
`verbatim` this is the sink of the specification as it is worded. -/
def sinkBySessions (written : List Byte → List Byte) :
    List Nat → (Nat → List Session) → List Frame → List Byte → List (Nat × Nat) →
      List Byte × List (Nat × Nat) × SinkEnd
  | [], _, _, file, log => (file, log, .waiting)
  | sender :: choices, sess, cq, file, log =>
    if sender = SCHEDULER_PROCESS then
      match cq with
      | [] => (file, log, .waiting)
      | f :: _ => (file, log ++ [(sender, f.tag)], .returned)
    else
      match sess sender with
      | [] => (file, log, .waiting)
      | s :: more =>
        sinkBySessions written choices (Function.update sess sender more) cq
          (file ++ (s.datas.map written).flatten) (log ++ sessionLog sender s)

/-- The Sessions the sink opens, with their senders, in the order it opens
them: one for each receive from any source that delivers the first message of
a worker, up to the first message of the coordinator. -/
def openedSessions : List Nat → (Nat → List Session) → List (Nat × Session)
  | [], _ => []
  | sender :: choices, sess =>
    if sender = SCHEDULER_PROCESS then []
    else
      match sess sender with
      | [] => []
      | s :: more => (sender, s) :: openedSessions choices (Function.update sess sender more)

/-- The bytes the sink writes for a Session whose data payloads each hold a
NUL: each payload up to its first NUL, in receipt order. -/
def Session.written (s : Session) : List Byte := (s.datas.map cstr).flatten

/-- What a call of `buildNewString` does from inside its loop, when the
current record has the payload lines `pl` left and the records `R` follow it:
for every state of the loop in which `doneB` holds the `nDone` whole records
read in this call and `cur` the lines read of the current record, the call
returns either the whole records read before the current one, rewinding the
stream to the start of the current record, or all of them, the current record
and the records `R1` that begin `R`, leaving the stream at the rest `R2`. -/
def LoopReturns (R : List Record) (pl : List (List Byte)) : Prop :=
  ∀ (pre doneB cur data : List Byte) (nDone alloc fuel : Nat),
    data = (pre ++ doneB ++ cur) ++ (renderLines pl ++ renderRecords R) →
    (nDone = 0 → doneB = [] ∧ cur.length + (renderLines pl).length ≤ 20000) →
    (alloc = 20000 ∨ alloc = 40000) →
    (renderLines pl ++ renderRecords R).length < fuel →
    ∃ (R1 R2 : List Record) (n : Nat) (block rest1 : List Byte),
      R = R1 ++ R2 ∧
      buildLoop fuel { data := data, rest := renderLines pl ++ renderRecords R }
          { finalString := doneB ++ cur, querysRead := nDone + 1,
            bufferOffsetForLastQueryStart := doneB.length,
            fileOffsetForLastQueryStart := pre.length + doneB.length,
            allocSize := alloc } =
        .ok { str := some block, amountRead := n, fp := { data := data, rest := rest1 } } ∧
      ((1 ≤ nDone ∧ R1 = [] ∧ block = doneB ∧
          rest1 = cur ++ (renderLines pl ++ renderRecords R)) ∨
        (block = doneB ++ cur ++ renderLines pl ++ renderRecords R1 ∧
          rest1 = renderRecords R2))

/-! ## Basic facts -/

theorem cstr_of_no_nul (l : List Byte) (h : 0 ∉ l) : cstr l = l := by
  unfold cstr
  rw [List.takeWhile_eq_self_iff]
  intro b hb
  have : b ≠ 0 := fun e => h (e ▸ hb)
  simpa using this

theorem cstr_append_nul (l r : List Byte) (h : 0 ∉ l) : cstr (l ++ 0 :: r) = l := by
  induction l with
  | nil => simp [cstr]
  | cons a l ih =>
    have ha : a ≠ 0 := fun e => h (by simp [e])
    have hl : 0 ∉ l := fun e => h (by simp [e])
    have := ih hl
    simp only [cstr] at this ⊢
    simp only [List.cons_append, List.takeWhile_cons, ha, ne_eq, not_false_eq_true,
      decide_True, if_true, this]

theorem ftell_append (A r : List Byte) : ftell { data := A ++ r, rest := r } = A.length := by
  simp [ftell]

theorem fseek_append (A r q : List Byte) :
    fseek { data := A ++ r, rest := q } A.length = { data := A ++ r, rest := r } := by
  simp [fseek]

theorem readLoop_line (lim : Nat) (line : List Byte) :
    ∀ (buf r : List Byte), NL ∉ line → buf.length + line.length ≤ lim →
      readLoop lim buf (line ++ NL :: r) = (buf ++ line, some NL, r) := by
  induction line with
  | nil => intro buf r _ _; simp [readLoop]
  | cons a l ih =>
    intro buf r hnl hlen
    have ha : a ≠ NL := fun e => hnl (by simp [e])
    have hl : NL ∉ l := fun e => hnl (by simp [e])
    simp only [List.length_cons] at hlen
    have hlt : buf.length < lim := by omega
    have e : (a :: l) ++ NL :: r = a :: (l ++ NL :: r) := rfl
    rw [e, readLoop, if_pos ⟨ha, hlt⟩, ih (buf ++ [a]) r hl (by simp; omega)]
    simp

/-- A line shorter than the maximum is returned whole, without its line
break, and the stream is left after the line break. -/
theorem readLine_line (bufLen : Nat) (line r : List Byte) (hnl : NL ∉ line)
    (hlen : line.length < bufLen - 2) :
    readLine (line ++ NL :: r) bufLen = .ok { buf := line, c := some NL, rest := r } := by
  unfold readLine
  rw [readLoop_line (bufLen - 2) line [] r hnl (by simp; omega)]
  simp only [List.nil_append, ge_iff_le]
  rw [if_neg (by omega)]
  simp [readLineEnd]

theorem readLine_nil (bufLen : Nat) (h : 3 ≤ bufLen) :
    readLine [] bufLen = .ok { buf := [], c := none, rest := [] } := by
  unfold readLine
  simp only [readLoop, List.length_nil, ge_iff_le]
  rw [if_neg (by omega)]
  simp [readLineEnd]

theorem growAlloc_fits (need k a : Nat) (h : need ≤ a) : growAlloc need (k + 1) a = some a := by
  simp [growAlloc]; omega

theorem growAlloc_once (need k a : Nat) (h1 : a < need) (h2 : need ≤ a * 2)
    (h3 : a * 2 ≤ INT_MAX) : growAlloc need (k + 2) a = some (a * 2) := by
  rw [growAlloc, if_pos (by omega), if_neg (by omega), growAlloc_fits _ _ _ h2]

/-- One iteration of the loop of `buildNewString` at the end of the stream. -/
theorem buildLoop_eof (fuel : Nat) (data : List Byte) (st : Locals) :
    buildLoop (fuel + 1) { data := data, rest := [] } st =
      if st.querysRead > 0 then
        .ok { str := some st.finalString, amountRead := st.querysRead,
              fp := { data := data, rest := [] } }
      else .ok { str := none, amountRead := 0, fp := { data := data, rest := [] } } := by
  simp [buildLoop, readLine_nil]

/-- One iteration of the loop of `buildNewString` on a line shorter than the
maximum of the line reader. -/
theorem buildLoop_line (fuel : Nat) (data line r : List Byte) (st : Locals)
    (hnl : NL ∉ line) (hlen : line.length < 16382) :
    buildLoop (fuel + 1) { data := data, rest := line ++ NL :: r } st =
      if st.finalString.length + (cstr line).length + 2 > st.allocSize ∧ st.querysRead > 1 then
        if bufHead line ≠ GT then
          .ok { str := some (st.finalString.take st.bufferOffsetForLastQueryStart),
                amountRead := st.querysRead,
                fp := fseek { data := data, rest := r } st.fileOffsetForLastQueryStart }
        else
          .ok { str := some st.finalString, amountRead := st.querysRead,
                fp := fseek { data := data, rest := r }
                  (ftell { data := data, rest := line ++ NL :: r }) }
      else
        match growAlloc (st.finalString.length + (cstr line).length + 2) 32 st.allocSize with
        | none => .fatal .reallocFailed
        | some allocSize =>
          buildLoop fuel { data := data, rest := r }
            { finalString := st.finalString ++ cstr line ++ [NL],
              querysRead := if bufHead line = GT then st.querysRead + 1 else st.querysRead,
              bufferOffsetForLastQueryStart :=
                if bufHead line = GT then st.finalString.length
                else st.bufferOffsetForLastQueryStart,
              fileOffsetForLastQueryStart :=
                if bufHead line = GT then ftell { data := data, rest := line ++ NL :: r }
                else st.fileOffsetForLastQueryStart,
              allocSize := allocSize } := by
  rw [buildLoop]
  simp only [readLine_line 16384 line r hnl (by simpa using hlen)]
  simp

/-! ## Coverage -/

theorem fseek_eq (data A r q : List Byte) (off : Nat) (h : data = A ++ r)
    (hoff : off = A.length) :
    fseek { data := data, rest := q } off = { data := data, rest := r } := by
  subst h; subst hoff; simp [fseek]

theorem ftell_eq (data A r : List Byte) (h : data = A ++ r) :
    ftell { data := data, rest := r } = A.length := by
  subst h; simp [ftell]

theorem bufHead_ne_of_head (l : List Byte) (h : l.head? ≠ some GT) : bufHead l ≠ GT := by
  cases l with
  | nil => simp [bufHead]
  | cons a l => simpa [bufHead] using h

theorem bufHead_eq_of_head (l : List Byte) (h : l.head? = some GT) : bufHead l = GT := by
  cases l with
  | nil => simp at h
  | cons a l => simpa [bufHead] using h

theorem growAlloc_block (need alloc : Nat) (halloc : alloc = 20000 ∨ alloc = 40000)
    (h : need ≤ 40000 ∨ need ≤ alloc) :
    ∃ a, growAlloc need 32 alloc = some a ∧ (a = 20000 ∨ a = 40000) := by
  by_cases hfit : need ≤ alloc
  · exact ⟨alloc, growAlloc_fits need 31 alloc hfit, halloc⟩
  · have hneed : need ≤ 40000 := by omega
    rcases halloc with rfl | rfl
    · exact ⟨40000, growAlloc_once need 30 20000 (by omega) (by omega) (by simp [INT_MAX]),
        Or.inr rfl⟩
    · omega

theorem renderLines_length_cons (l : List Byte) (pl : List (List Byte)) :
    (renderLines (l :: pl)).length = l.length + 1 + (renderLines pl).length := by
  simp [renderLines]; omega

theorem renderRecords_append (A B : List Record) :
    renderRecords (A ++ B) = renderRecords A ++ renderRecords B := by
  induction A with
  | nil => rfl
  | cons r A ih => simp [renderRecords, ih]

/-- A payload line of the current record: the loop either returns the records
before the current one, or goes on with the next line. -/
theorem loopReturns_payload (R : List Record) (l : List Byte) (pl : List (List Byte))
    (hl : GoodLine l ∧ l.head? ≠ some GT) (ih : LoopReturns R pl) :
    LoopReturns R (l :: pl) := by
  intro pre doneB cur data nDone alloc fuel hdata h0 halloc hfuel
  obtain ⟨⟨hlen, hnl, hnul⟩, hhead⟩ := hl
  obtain ⟨k, rfl⟩ : ∃ k, fuel = k + 1 := ⟨fuel - 1, by omega⟩
  have hrest : renderLines (l :: pl) ++ renderRecords R =
      l ++ NL :: (renderLines pl ++ renderRecords R) := by simp [renderLines]
  have hbh := bufHead_ne_of_head l hhead
  rw [hrest] at hdata hfuel ⊢
  rw [buildLoop_line _ _ _ _ _ hnl hlen]
  simp only [cstr_of_no_nul l hnul]
  by_cases hov : (doneB ++ cur).length + l.length + 2 > alloc ∧ nDone + 1 > 1
  · rw [if_pos hov, if_pos hbh]
    refine ⟨[], R, nDone + 1, doneB, cur ++ (l ++ NL :: (renderLines pl ++ renderRecords R)),
      rfl, ?_, Or.inl ⟨by omega, rfl, rfl, rfl⟩⟩
    rw [fseek_eq data (pre ++ doneB) (cur ++ (l ++ NL :: (renderLines pl ++ renderRecords R)))
      _ _ (by rw [hdata]; simp) (by simp)]
    simp
  · rw [if_neg hov]
    have hneed : (doneB ++ cur).length + l.length + 2 ≤ 40000 ∨
        (doneB ++ cur).length + l.length + 2 ≤ alloc := by
      by_cases hn : nDone = 0
      · obtain ⟨hd, hsz⟩ := h0 hn
        rw [renderLines_length_cons] at hsz
        left; subst hd; simp; omega
      · right
        by_contra hc
        exact hov ⟨by omega, by omega⟩
    obtain ⟨a, hg, ha⟩ := growAlloc_block _ alloc halloc hneed
    simp only [hg, if_neg hbh]
    have hsz : nDone = 0 → doneB = [] ∧
        (cur ++ l ++ [NL]).length + (renderLines pl).length ≤ 20000 := by
      intro hn
      obtain ⟨hd, hsz⟩ := h0 hn
      rw [renderLines_length_cons] at hsz
      refine ⟨hd, ?_⟩
      simp; omega
    obtain ⟨R1, R2, n, block, rest1, hR, hrun, hcase⟩ :=
      ih pre doneB (cur ++ l ++ [NL]) data nDone a k (by rw [hdata]; simp) hsz ha
        (by simp only [List.length_append, List.length_cons] at hfuel ⊢; omega)
    refine ⟨R1, R2, n, block, rest1, hR, ?_, ?_⟩
    · rw [← hrun]; simp
    · rcases hcase with ⟨h1, h2, h3, h4⟩ | ⟨h3, h4⟩
      · exact Or.inl ⟨h1, h2, h3, by rw [h4]; simp⟩
      · exact Or.inr ⟨by rw [h3]; simp [renderLines], h4⟩

/-- At the end of the current record with no record after it, the loop meets
the end of the stream and returns everything read in this call. -/
theorem loopReturns_end : LoopReturns [] [] := by
  intro pre doneB cur data nDone alloc fuel hdata h0 halloc hfuel
  obtain ⟨k, rfl⟩ : ∃ k, fuel = k + 1 := ⟨fuel - 1, by omega⟩
  refine ⟨[], [], nDone + 1, doneB ++ cur, [], rfl, ?_, Or.inr ⟨by simp [renderRecords, renderLines], rfl⟩⟩
  simp only [renderLines, renderRecords, List.append_nil]
  rw [buildLoop_eof]
  simp

/-- At the end of the current record with the record `r` after it, the loop
reads the header of `r`: it returns the records read, or starts `r` as the
current record. -/
theorem loopReturns_header (r : Record) (R : List Record) (hr : r.WellFormed)
    (ih : LoopReturns R r.payload) : LoopReturns (r :: R) [] := by
  intro pre doneB cur data nDone alloc fuel hdata h0 halloc hfuel
  obtain ⟨hhead, ⟨hlen, hnl, hnul⟩, _⟩ := hr
  obtain ⟨k, rfl⟩ : ∃ k, fuel = k + 1 := ⟨fuel - 1, by omega⟩
  have hrest : renderLines [] ++ renderRecords (r :: R) =
      r.header ++ NL :: (renderLines r.payload ++ renderRecords R) := by
    simp [renderLines, renderRecords, Record.bytes]
  have hbh := bufHead_eq_of_head r.header hhead
  rw [hrest] at hdata hfuel ⊢
  rw [buildLoop_line _ _ _ _ _ hnl hlen]
  simp only [cstr_of_no_nul r.header hnul]
  by_cases hov : (doneB ++ cur).length + r.header.length + 2 > alloc ∧ nDone + 1 > 1
  · rw [if_pos hov, if_neg (by simpa using hbh)]
    refine ⟨[], r :: R, nDone + 1, doneB ++ cur,
      r.header ++ NL :: (renderLines r.payload ++ renderRecords R), rfl, ?_,
      Or.inr ⟨by simp [renderLines, renderRecords], by simp [renderRecords, Record.bytes, renderLines]⟩⟩
    rw [ftell_eq data (pre ++ doneB ++ cur) _ hdata,
      fseek_eq data (pre ++ doneB ++ cur) _ _ _ hdata rfl]
  · rw [if_neg hov]
    have hneed : (doneB ++ cur).length + r.header.length + 2 ≤ 40000 ∨
        (doneB ++ cur).length + r.header.length + 2 ≤ alloc := by
      by_cases hn : nDone = 0
      · obtain ⟨hd, hsz⟩ := h0 hn
        left; subst hd; simp; omega
      · right
        by_contra hc
        exact hov ⟨by omega, by omega⟩
    obtain ⟨a, hg, ha⟩ := growAlloc_block _ alloc halloc hneed
    simp only [hg, if_pos hbh]
    rw [ftell_eq data (pre ++ doneB ++ cur) _ hdata]
    obtain ⟨R1, R2, n, block, rest1, hR, hrun, hcase⟩ :=
      ih pre (doneB ++ cur) (r.header ++ [NL]) data (nDone + 1) a k
        (by rw [hdata]; simp) (by omega) ha
        (by simp only [List.length_append, List.length_cons] at hfuel ⊢; omega)
    have hfo : pre.length + (doneB ++ cur).length = (pre ++ doneB ++ cur).length := by
      simp only [List.length_append]; omega
    rw [hfo] at hrun
    simp only [List.append_assoc] at hrun ⊢
    rcases hcase with ⟨h1, h2, h3, h4⟩ | ⟨h3, h4⟩
    · refine ⟨[], r :: R, n, block, rest1, rfl, hrun, Or.inr ⟨?_, ?_⟩⟩
      · rw [h3]; simp [renderLines, renderRecords]
      · rw [h4]; simp [renderRecords, Record.bytes, renderLines]
    · refine ⟨r :: R1, R2, n, block, rest1, by rw [hR]; rfl, hrun, Or.inr ⟨?_, h4⟩⟩
      rw [h3]; simp [renderRecords, Record.bytes, renderLines]

theorem loopReturns_all (R : List Record) (hR : ∀ r ∈ R, r.WellFormed) :
    ∀ pl : List (List Byte), (∀ l ∈ pl, GoodLine l ∧ l.head? ≠ some GT) → LoopReturns R pl := by
  induction R with
  | nil =>
    intro pl
    induction pl with
    | nil => intro _; exact loopReturns_end
    | cons l pl ih =>
      intro hpl
      exact loopReturns_payload [] l pl (hpl l (by simp))
        (ih (fun x hx => hpl x (by simp [hx])))
  | cons r R IH =>
    have hr : r.WellFormed := hR r (by simp)
    have hrest : LoopReturns R r.payload :=
      IH (fun x hx => hR x (by simp [hx])) r.payload hr.2.2
    intro pl
    induction pl with
    | nil => intro _; exact loopReturns_header r R hr hrest
    | cons l pl ih =>
      intro hpl
      exact loopReturns_payload (r :: R) l pl (hpl l (by simp))
        (ih (fun x hx => hpl x (by simp [hx])))

/-- A call of `buildNewString` at the end of the stream returns `NULL`. -/
theorem buildNewString_at_end (data : List Byte) :
    buildNewString { data := data, rest := [] } =
      .ok { str := none, amountRead := 0, fp := { data := data, rest := [] } } := by
  simp [buildNewString, buildLoop_eof]

/-- A call of `buildNewString` at the start of a record that fits the block
limit returns that record and some of the records after it, whole, and leaves
the stream at the start of the next record. -/
theorem buildNewString_at_record (pre : List Byte) (r : Record) (R : List Record)
    (hwf : ∀ x ∈ r :: R, x.WellFormed) (hsz : r.bytes.length ≤ 20000) :
    ∃ (R1 R2 : List Record) (n : Nat), R = R1 ++ R2 ∧
      buildNewString { data := pre ++ renderRecords (r :: R), rest := renderRecords (r :: R) } =
        .ok { str := some (renderRecords (r :: R1)), amountRead := n,
              fp := { data := pre ++ renderRecords (r :: R), rest := renderRecords R2 } } := by
  have hr : r.WellFormed := hwf r (by simp)
  obtain ⟨hhead, ⟨hlen, hnl, hnul⟩, hpay⟩ := hr
  have hrest : renderRecords (r :: R) =
      r.header ++ NL :: (renderLines r.payload ++ renderRecords R) := by
    simp [renderLines, renderRecords, Record.bytes]
  have hbytes : r.bytes.length = r.header.length + 1 + (renderLines r.payload).length := by
    simp [Record.bytes, renderLines]; omega
  have hbh := bufHead_eq_of_head r.header hhead
  have hall := loopReturns_all R (fun x hx => hwf x (by simp [hx])) r.payload hpay
  obtain ⟨R1, R2, n, block, rest1, hR, hrun, hcase⟩ :=
    hall pre [] (r.header ++ [NL]) (pre ++ renderRecords (r :: R)) 0 20000
      (r.header ++ NL :: (renderLines r.payload ++ renderRecords R)).length
      (by rw [hrest]; simp) (fun _ => ⟨rfl, by simp; omega⟩) (Or.inl rfl)
      (by simp only [List.length_append, List.length_cons]; omega)
  rcases hcase with ⟨h1, _⟩ | ⟨h3, h4⟩
  · omega
  · refine ⟨R1, R2, n, hR, ?_⟩
    unfold buildNewString
    simp only [hrest] at hrun ⊢
    rw [buildLoop_line _ _ _ _ _ hnl hlen]
    simp only [cstr_of_no_nul r.header hnul, List.length_nil, BLOCK_SIZE]
    rw [if_neg (by omega), growAlloc_fits _ 31 _ (by omega)]
    simp only [if_pos hbh]
    rw [ftell_eq _ pre _ rfl]
    simp only [List.nil_append, List.length_nil, Nat.add_zero, Nat.zero_add] at hrun ⊢
    rw [hrun, h3, h4]
    simp [renderRecords, Record.bytes, renderLines]

theorem blocksUntilNull_records :
    ∀ (fuel : Nat) (R : List Record) (pre : List Byte),
      (∀ r ∈ R, r.WellFormed) → (∀ r ∈ R, r.bytes.length ≤ 20000) → R.length < fuel →
      ∃ groups : List (List Record), groups.flatten = R ∧ (∀ g ∈ groups, g ≠ []) ∧
        blocksUntilNull fuel { data := pre ++ renderRecords R, rest := renderRecords R } =
          .ok (groups.map renderRecords) := by
  intro fuel
  induction fuel with
  | zero => intro R pre _ _ h; omega
  | succ k ih =>
    intro R pre hwf hsz hlen
    cases R with
    | nil =>
      refine ⟨[], rfl, by simp, ?_⟩
      simp [blocksUntilNull, renderRecords, buildNewString_at_end]
    | cons r R =>
      obtain ⟨R1, R2, n, hR, hcall⟩ :=
        buildNewString_at_record pre r R hwf (hsz r (by simp))
      have hlen2 : R2.length < k := by
        have : R.length = R1.length + R2.length := by rw [hR]; simp
        simp only [List.length_cons] at hlen; omega
      have hdata : pre ++ renderRecords (r :: R) =
          (pre ++ renderRecords (r :: R1)) ++ renderRecords R2 := by
        rw [hR, ← List.cons_append, renderRecords_append]; simp
      obtain ⟨groups, hg1, hg2, hg3⟩ :=
        ih R2 (pre ++ renderRecords (r :: R1))
          (fun x hx => hwf x (by rw [hR]; simp [hx]))
          (fun x hx => hsz x (by rw [hR]; simp [hx])) hlen2
      refine ⟨(r :: R1) :: groups, by simp [hg1, hR], ?_, ?_⟩
      · intro g hg
        rcases List.mem_cons.1 hg with rfl | hg
        · simp
        · exact hg2 g hg
      · rw [blocksUntilNull, hcall]
        simp only
        rw [hdata, hg3]
        simp

theorem renderRecords_flatten (groups : List (List Record)) :
    (groups.map renderRecords).flatten = renderRecords groups.flatten := by
  induction groups with
  | nil => rfl
  | cons g gs ih => simp [renderRecords_append, ih]

theorem renderRecords_length_ge (R : List Record) : R.length ≤ (renderRecords R).length := by
  induction R with
  | nil => simp
  | cons r R ih => simp [renderRecords, Record.bytes, renderLines]; omega

/-- C1 (coverage). For a query source made of whole records (each header
starts with `>`, no payload line does, every line is followed by a line
break, is shorter than 16382 bytes and has no NUL), each record no larger
than the block limit, the blocks obtained by calling `buildNewString` from the
start of the source until it returns `NULL` are the renderings of consecutive
non-empty groups of whole records that together are the records of the
source, in order; so their concatenation is the source, and every record lies
whole in exactly one block. -/
theorem coverage (recs : List Record) (hwf : ∀ r ∈ recs, r.WellFormed)
    (hsize : ∀ r ∈ recs, r.bytes.length ≤ BLOCK_SIZE) :
    ∃ groups : List (List Record),
      groups.flatten = recs ∧ (∀ g ∈ groups, g ≠ []) ∧
      allBlocks (renderRecords recs) = .ok (groups.map renderRecords) ∧
      (groups.map renderRecords).flatten = renderRecords recs := by
  obtain ⟨groups, h1, h2, h3⟩ :=
    blocksUntilNull_records ((renderRecords recs).length + 1) recs [] hwf hsize
      (Nat.lt_succ_of_le (renderRecords_length_ge recs))
  refine ⟨groups, h1, h2, ?_, by rw [renderRecords_flatten, h1]⟩
  simpa [allBlocks, fopen] using h3

/-- C1, at a source of two records. -/
theorem coverage_witness :
    ∃ groups : List (List Record),
      groups.flatten =
          [{ header := [62, 97], payload := [[65, 67], [71]] }, { header := [62, 98], payload := [] }] ∧
        (∀ g ∈ groups, g ≠ []) ∧
        allBlocks (renderRecords
          [{ header := [62, 97], payload := [[65, 67], [71]] }, { header := [62, 98], payload := [] }]) =
          .ok (groups.map renderRecords) ∧
        (groups.map renderRecords).flatten = renderRecords
          [{ header := [62, 97], payload := [[65, 67], [71]] }, { header := [62, 98], payload := [] }] :=
  coverage [{ header := [62, 97], payload := [[65, 67], [71]] }, { header := [62, 98], payload := [] }]
    (by decide) (by decide)

/-! ## Byte conservation between a worker and the sink -/

theorem cstr_append_nul_any (l r : List Byte) : cstr (l ++ 0 :: r) = cstr l := by
  induction l with
  | nil => simp [cstr]
  | cons a l ih =>
    simp only [cstr] at ih ⊢
    by_cases ha : a = 0
    · simp [List.takeWhile_cons, ha]
    · simp only [List.cons_append, List.takeWhile_cons, ha, ne_eq, not_false_eq_true,
        decide_True, if_true, ih]

/-- What the worker sends for a chunk shorter than its buffer: the chunk, a
NUL, and what the buffer held behind. -/
theorem forward_buffer (buffer chunk : List Byte) (h : chunk.length < buffer.length) :
    (recvInto buffer chunk).set chunk.length 0 =
      chunk ++ 0 :: buffer.drop (chunk.length + 1) ∧
    ((recvInto buffer chunk).set chunk.length 0).length = buffer.length := by
  constructor
  · unfold recvInto
    rw [List.set_append_right _ _ (Nat.le_refl _)]
    simp only [Nat.sub_self]
    cases hd : buffer.drop chunk.length with
    | nil =>
      have := congrArg List.length hd
      simp at this; omega
    | cons x xs =>
      have : buffer.drop (chunk.length + 1) = xs := by
        rw [← List.drop_drop, hd]
        rfl
      simp [this]
  · simp [recvInto]; omega

/-- The loop of the sink on the messages a worker sends for one block, every
chunk shorter than the buffer of the worker: the sink appends, for each chunk
in order, the bytes of the chunk before its first NUL. -/
theorem sessionLoop_forward (w : Nat) :
    ∀ (chunks : List (List Byte)) (wbuf : List Byte) (tag : Nat) (st : Sink),
      tag ≠ END_TAG → (∀ c ∈ chunks, c.length < wbuf.length) →
      ∃ st1 : Sink,
        sessionLoop w (forwardLoop chunks wbuf ++ [{ tag := END_TAG, payload := [0] }]) tag st =
          ([], st1, none) ∧
        st1.file = st.file ++ (chunks.map cstr).flatten := by
  intro chunks
  induction chunks with
  | nil =>
    intro wbuf tag st htag _
    refine ⟨{ st with buffer := recvInto st.buffer [0], log := st.log ++ [(w, END_TAG)] }, ?_,
      by simp⟩
    simp [forwardLoop, sessionLoop, htag]
  | cons c cs ih =>
    intro wbuf tag st htag hlen
    obtain ⟨hset, hl⟩ := forward_buffer wbuf c (hlen c (by simp))
    have hcs : ∀ x ∈ cs, x.length < ((recvInto wbuf c).set c.length 0).length := by
      intro x hx; rw [hl]; exact hlen x (by simp [hx])
    have hpr : fprintfS (recvInto st.buffer ((recvInto wbuf c).set c.length 0)) =
        some (cstr c) := by
      rw [hset]
      unfold fprintfS recvInto
      rw [if_pos (by simp)]
      simp only [List.append_assoc, List.cons_append, cstr_append_nul_any]
    obtain ⟨st1, hrun, hfile⟩ := ih ((recvInto wbuf c).set c.length 0) MESSAGE_TAG
      { file := st.file ++ cstr c,
        buffer := recvInto st.buffer ((recvInto wbuf c).set c.length 0),
        log := st.log ++ [(w, MESSAGE_TAG)] } (by decide) hcs
    refine ⟨st1, ?_, by rw [hfile]; simp⟩
    simp only [forwardLoop, List.cons_append]
    rw [sessionLoop, if_pos htag, if_pos rfl]
    simp only [hpr]
    exact hrun

/-- The sink on one Session of a worker whose chunks are all shorter than its
buffer. -/
theorem writerLoop_worker (w : Nat) (hw : w ≠ SCHEDULER_PROCESS) (chunks : List (List Byte))
    (wbuf : List Byte) (st : Sink) (hlen : ∀ c ∈ chunks, c.length < wbuf.length) :
    (writerLoop [w] (fun s => if s = w then workerSession chunks wbuf else []) st).1.file =
      st.file ++ (chunks.map cstr).flatten := by
  obtain ⟨st1, hrun, hfile⟩ := sessionLoop_forward w chunks wbuf BEGIN_TAG
    { st with buffer := recvInto st.buffer [0], log := st.log ++ [(w, BEGIN_TAG)] }
    (by decide) hlen
  simp only [writerLoop, if_true, workerSession, if_neg hw]
  rw [hrun]
  simp only [writerLoop]
  exact hfile

theorem flatten_map_cstr (chunks : List (List Byte)) (h : ∀ c ∈ chunks, 0 ∉ c) :
    (chunks.map cstr).flatten = chunks.flatten := by
  induction chunks with
  | nil => rfl
  | cons c cs ih =>
    simp only [List.map_cons, List.flatten_cons]
    rw [cstr_of_no_nul c (h c (by simp)), ih (fun x hx => h x (by simp [hx]))]

/-- A chunk that fills the buffer of the worker and holds no NUL: the NUL the
worker stores falls outside the buffer, the message holds no NUL, and the sink
reads past the end of its buffer. -/
theorem writerLoop_full_chunk (w : Nat) (hw : w ≠ SCHEDULER_PROCESS) (chunk wbuf : List Byte)
    (st : Sink) (hpos : 1 ≤ chunk.length) (hlen : chunk.length = wbuf.length)
    (hst : st.buffer.length = wbuf.length) (hnul : 0 ∉ chunk) :
    (writerLoop [w] (fun s => if s = w then workerSession [chunk] wbuf else []) st).2 =
      .undefinedRead := by
  have h1 : (recvInto wbuf chunk).set chunk.length 0 = chunk := by
    unfold recvInto
    rw [hlen, List.drop_length, List.append_nil, ← hlen]
    exact List.set_eq_of_length_le (Nat.le_refl _)
  have h2 : recvInto (recvInto st.buffer [0]) chunk = chunk := by
    have hl : (recvInto st.buffer [0]).length ≤ chunk.length := by
      simp only [recvInto, List.length_append, List.length_cons, List.length_nil,
        List.length_drop]
      omega
    unfold recvInto at hl ⊢
    rw [List.drop_eq_nil_of_le hl, List.append_nil]
  simp only [writerLoop, if_true, workerSession, if_neg hw, forwardLoop, List.nil_append,
    List.cons_append, h1]
  rw [sessionLoop, if_pos (by decide), if_pos rfl]
  simp only [h2, fprintfS, if_neg hnul]

/-- C2 as stated fails: a worker that reads the chunk `A`, NUL, `B` from the
pipe makes the sink append the one byte `A`. -/
theorem byte_conservation_nul_chunk :
    ([65, 0, 66] : List Byte).length ≤ BUFFER_SIZE ∧
    (writerLoop [2]
        (fun s => if s = 2 then workerSession [[65, 0, 66]] (List.replicate BUFFER_SIZE 0)
          else [])
        { file := [], buffer := List.replicate BUFFER_SIZE 0, log := [] }).1.file ≠
      [] ++ [[65, 0, 66]].flatten := by
  refine ⟨by decide, ?_⟩
  rw [writerLoop_worker 2 (by decide) _ _ _
    (by intro c hc; rw [List.length_replicate]; simp at hc; subst hc; decide)]
  decide

/-- C2, amended. For every sequence of chunks a worker reads from the pipe
during one block, each of 1 to `BUFFER_SIZE - 1` bytes and none holding a NUL
byte, when the worker forwards each chunk as a data message and the sink
consumes that Session, the bytes the sink appends to the output file are the
concatenation of the chunks in read order. -/
theorem byte_conservation (w : Nat) (hw : w ≠ SCHEDULER_PROCESS) (chunks : List (List Byte))
    (wbuf : List Byte) (st : Sink) (hwbuf : wbuf.length = BUFFER_SIZE)
    (hlen : ∀ c ∈ chunks, 1 ≤ c.length ∧ c.length < BUFFER_SIZE)
    (hnul : ∀ c ∈ chunks, 0 ∉ c) :
    (writerLoop [w] (fun s => if s = w then workerSession chunks wbuf else []) st).1.file =
      st.file ++ chunks.flatten := by
  rw [writerLoop_worker w hw chunks wbuf st (fun c hc => by rw [hwbuf]; exact (hlen c hc).2),
    flatten_map_cstr chunks hnul]

/-- C2 amended, at two chunks. -/
theorem byte_conservation_witness :
    (writerLoop [2]
        (fun s => if s = 2 then workerSession [[65, 66], [67]] (List.replicate BUFFER_SIZE 7)
          else [])
        { file := [1], buffer := List.replicate BUFFER_SIZE 0, log := [] }).1.file =
      [1] ++ [[65, 66], [67]].flatten :=
  byte_conservation 2 (by decide) [[65, 66], [67]] (List.replicate BUFFER_SIZE 7)
    { file := [1], buffer := List.replicate BUFFER_SIZE 0, log := [] } (by simp) (by decide)
    (by decide)

/-! ## Block framing by the coordinator -/

theorem sendLoop_spec (toSend : List Byte) (sender : Nat) :
    ∀ (fuel cnt : Nat), toSend.length - cnt ≤ fuel → cnt ≤ toSend.length →
      ∃ datas : List (List Byte),
        sendLoop toSend toSend.length sender fuel cnt =
          datas.map (fun p => { dest := sender, tag := MESSAGE_TAG, payload := p }) ∧
        datas.flatten = toSend.drop cnt ∧
        datas.length = (toSend.length - cnt + BUFFER_SIZE - 1) / BUFFER_SIZE ∧
        ∀ p ∈ datas, 1 ≤ p.length ∧ p.length ≤ BUFFER_SIZE := by
  intro fuel
  induction fuel with
  | zero =>
    intro cnt h1 h2
    have hc : cnt = toSend.length := by omega
    refine ⟨[], by simp [sendLoop], by simp [hc], ?_, by simp⟩
    simp only [hc, BUFFER_SIZE, List.length_nil]; omega
  | succ k ih =>
    intro cnt h1 h2
    by_cases hlt : cnt < toSend.length
    · have key : ∀ n : Nat,
          (if toSend.length - cnt ≥ BUFFER_SIZE then BUFFER_SIZE else toSend.length - cnt) = n →
          1 ≤ n → (n = 20000 ∨ (n = toSend.length - cnt ∧ n < 20000)) →
          n ≤ toSend.length - cnt →
          ∃ datas : List (List Byte),
            sendLoop toSend toSend.length sender (k + 1) cnt =
              datas.map (fun p => { dest := sender, tag := MESSAGE_TAG, payload := p }) ∧
            datas.flatten = toSend.drop cnt ∧
            datas.length = (toSend.length - cnt + BUFFER_SIZE - 1) / BUFFER_SIZE ∧
            ∀ p ∈ datas, 1 ≤ p.length ∧ p.length ≤ BUFFER_SIZE := by
        intro n hn hn1 hcase hn3
        obtain ⟨datas, hd1, hd2, hd3, hd4⟩ := ih (cnt + n) (by omega) (by omega)
        refine ⟨(toSend.drop cnt).take n :: datas, ?_, ?_, ?_, ?_⟩
        · rw [sendLoop, if_pos hlt]
          simp only [hn, hd1, List.map_cons]
        · simp only [List.flatten_cons, hd2]
          rw [← List.drop_drop, List.take_append_drop]
        · simp only [List.length_cons, hd3, BUFFER_SIZE]
          omega
        · intro p hp
          rcases List.mem_cons.1 hp with rfl | hp
          · simp only [List.length_take, List.length_drop, BUFFER_SIZE]
            omega
          · exact hd4 p hp
      by_cases hbig : toSend.length - cnt ≥ BUFFER_SIZE
      · exact key BUFFER_SIZE (if_pos hbig) (by decide) (Or.inl rfl) hbig
      · exact key (toSend.length - cnt) (if_neg hbig) (by omega)
          (Or.inr ⟨rfl, by simp only [BUFFER_SIZE] at hbig; omega⟩) (le_refl _)
    · have hc : cnt = toSend.length := by omega
      refine ⟨[], by simp [sendLoop, hlt], by simp [hc], ?_, by simp⟩
      simp only [hc, BUFFER_SIZE, List.length_nil]; omega

/-- The shape of what the coordinator sends for a block. -/
theorem sendBlock_spec (toSend : List Byte) (sender : Nat) :
    ∃ datas : List (List Byte),
      sendBlock toSend sender =
        { dest := sender, tag := BEGIN_TAG, payload := [0] } ::
          (datas.map (fun p => { dest := sender, tag := MESSAGE_TAG, payload := p }) ++
            [{ dest := sender, tag := END_TAG, payload := [0] }]) ∧
      datas.flatten = toSend ∧
      datas.length = (toSend.length + BUFFER_SIZE - 1) / BUFFER_SIZE ∧
      ∀ p ∈ datas, 1 ≤ p.length ∧ p.length ≤ BUFFER_SIZE := by
  obtain ⟨datas, h1, h2, h3, h4⟩ :=
    sendLoop_spec toSend sender toSend.length 0 (by omega) (by omega)
  exact ⟨datas, by rw [sendBlock, h1], by simpa using h2, by simpa using h3, h4⟩

/-- C6 (block framing). When the coordinator, still in its loop, receives a
ready-request from `sender` and `buildNewString` returns a block, the
messages it sends next are one begin message, then the data messages, then
one end message, all addressed to `sender`; there are
`ceil(n / BUFFER_SIZE)` data messages for a block of `n` bytes, each with at
least one and at most `BUFFER_SIZE` bytes, and their payloads concatenated in
send order are the block. -/
theorem block_framing (size sender : Nat) (reqs : List Nat) (fp : FILE) (finishedWorkers : Nat)
    (r : Built) (block : List Byte) (hloop : finishedWorkers < size - 2)
    (hcall : buildNewString fp = .ok r) (hstr : r.str = some block) (hn : 1 ≤ block.length) :
    ∃ datas : List (List Byte),
      (schedLoop size (sender :: reqs) fp finishedWorkers).1 =
        { dest := sender, tag := BEGIN_TAG, payload := [0] } ::
          (datas.map (fun p => { dest := sender, tag := MESSAGE_TAG, payload := p }) ++
            { dest := sender, tag := END_TAG, payload := [0] } ::
              (schedLoop size reqs r.fp finishedWorkers).1) ∧
      datas.length = (block.length + BUFFER_SIZE - 1) / BUFFER_SIZE ∧
      1 ≤ datas.length ∧
      (∀ p ∈ datas, 1 ≤ p.length ∧ p.length ≤ BUFFER_SIZE) ∧
      datas.flatten = block := by
  obtain ⟨datas, h1, h2, h3, h4⟩ := sendBlock_spec block sender
  refine ⟨datas, ?_, h3, ?_, h4, h2⟩
  · rw [schedLoop, if_pos hloop, hcall]
    simp only [hstr, h1]
    simp
  · rw [h3]; simp only [BUFFER_SIZE]; omega

/-- C6, at a source of one small record and one worker. -/
theorem block_framing_witness :
    ∃ datas : List (List Byte),
      (schedLoop 3 (2 :: []) (fopen [62, 97, 10, 65, 10]) 0).1 =
        { dest := 2, tag := BEGIN_TAG, payload := [0] } ::
          (datas.map (fun p => { dest := 2, tag := MESSAGE_TAG, payload := p }) ++
            { dest := 2, tag := END_TAG, payload := [0] } ::
              (schedLoop 3 []
                { data := [62, 97, 10, 65, 10], rest := [] } 0).1) ∧
      datas.length = (([62, 97, 10, 65, 10] : List Byte).length + BUFFER_SIZE - 1) / BUFFER_SIZE ∧
      1 ≤ datas.length ∧
      (∀ p ∈ datas, 1 ≤ p.length ∧ p.length ≤ BUFFER_SIZE) ∧
      datas.flatten = [62, 97, 10, 65, 10] :=
  block_framing 3 2 [] (fopen [62, 97, 10, 65, 10]) 0
    { str := some [62, 97, 10, 65, 10], amountRead := 1,
      fp := { data := [62, 97, 10, 65, 10], rest := [] } }
    [62, 97, 10, 65, 10] (by decide) (by decide) rfl (by decide)

/-! ## The completion protocol -/

theorem readLoop_eof (lim : Nat) :
    ∀ (rest buf b r : List Byte), readLoop lim buf rest = (b, none, r) → r = [] := by
  intro rest
  induction rest with
  | nil => intro buf b r h; simp [readLoop] at h; exact h.2
  | cons x xs ih =>
    intro buf b r h
    rw [readLoop] at h
    split at h
    · exact ih _ _ _ h
    · simp at h

theorem readLineEnd_ok (buf : List Byte) (c : Option Byte) (rest : List Byte) (ln : Line)
    (h : readLineEnd buf c rest = .ok ln) :
    ln = { buf := buf, c := c, rest := rest } ∧ ¬(c = none ∧ buf.length > 0) := by
  unfold readLineEnd at h
  split at h
  · simp at h
  · rename_i hn
    simp at h
    exact ⟨h.symm, hn⟩

/-- When `readLine` returns `EOF`, nothing is left to read. -/
theorem readLine_eof (rest : List Byte) (bufLen : Nat) (ln : Line)
    (h : readLine rest bufLen = .ok ln) (hc : ln.c = none) : ln.rest = [] := by
  unfold readLine at h
  rcases hl : readLoop (bufLen - 2) [] rest with ⟨buf, c, rest1⟩
  rw [hl] at h
  simp only at h
  by_cases h1 : buf.length ≥ bufLen - 2
  · rw [if_pos h1] at h
    by_cases h2 : buf.head? = some GT
    · rw [if_pos h2] at h
      cases hd : discardHeader c rest1 with
      | error e => rw [hd] at h; simp at h
      | ok rest2 =>
        rw [hd] at h
        simp only at h
        obtain ⟨rfl, _⟩ := readLineEnd_ok _ _ _ _ h
        simp only at hc
        subst hc
        have := readLoop_eof _ _ _ _ _ hl
        subst this
        simp [discardHeader, skipToNewline] at hd
    · rw [if_neg h2] at h
      obtain ⟨rfl, hne⟩ := readLineEnd_ok _ _ _ _ h
      simp only at hc
      exact absurd ⟨hc, by simp⟩ hne
  · rw [if_neg h1] at h
    obtain ⟨rfl, _⟩ := readLineEnd_ok _ _ _ _ h
    simp only at hc
    subst hc
    exact readLoop_eof _ _ _ _ _ hl

/-- A call whose loop returns `NULL` leaves the stream at its end. -/
theorem buildLoop_null :
    ∀ (fuel : Nat) (fp : FILE) (st : Locals) (r : Built),
      buildLoop fuel fp st = .ok r → r.str = none → r.fp.rest = [] ∧ r.fp.data = fp.data := by
  intro fuel
  induction fuel with
  | zero => intro fp st r h; simp [buildLoop] at h
  | succ k ih =>
    intro fp st r h hs
    rw [buildLoop] at h
    cases hl : readLine fp.rest 16384 with
    | error e => rw [hl] at h; simp at h
    | ok ln =>
      rw [hl] at h
      simp only at h
      split at h
      · rename_i hc
        have hrest := readLine_eof _ _ _ hl hc
        split at h
        · simp at h; rw [← h] at hs; simp at hs
        · simp at h; rw [← h]; exact ⟨hrest, rfl⟩
      · split at h
        · split at h
          · simp at h; rw [← h] at hs; simp at hs
          · simp at h; rw [← h] at hs; simp at hs
        · split at h
          · simp at h
          · have := ih _ _ _ h hs
            exact ⟨this.1, this.2⟩

/-- Once `buildNewString` has returned `NULL`, it returns `NULL` on the stream
it left. -/
theorem buildNewString_null_again (fp : FILE) (r : Built) (h : buildNewString fp = .ok r)
    (hs : r.str = none) :
    buildNewString r.fp = .ok { str := none, amountRead := 0, fp := r.fp } := by
  obtain ⟨h1, _⟩ := buildLoop_null _ _ _ _ h hs
  have : r.fp = { data := r.fp.data, rest := [] } := by
    cases hfp : r.fp with
    | mk d q => rw [hfp] at h1; simp at h1; rw [h1]
  rw [this]
  exact buildNewString_at_end _

/-- The coordinator while blocks remain: each ready-request is answered with
the next block. -/
theorem schedLoop_blocks (size : Nat) :
    ∀ (fuel : Nat) (fp : FILE) (blocks : List (List Byte)),
      blocksUntilNull fuel fp = .ok blocks →
      ∀ (r1 tail : List Nat) (fin : Nat), r1.length = blocks.length → fin < size - 2 →
        ∃ (fpEnd : FILE) (r : Built), buildNewString fpEnd = .ok r ∧ r.str = none ∧
          schedLoop size (r1 ++ tail) fp fin =
            ((List.zipWith sendBlock blocks r1).flatten ++ (schedLoop size tail fpEnd fin).1,
              (schedLoop size tail fpEnd fin).2) := by
  intro fuel
  induction fuel with
  | zero => intro fp blocks h; simp [blocksUntilNull] at h
  | succ k ih =>
    intro fp blocks h r1 tail fin hlen hfin
    rw [blocksUntilNull] at h
    cases hb : buildNewString fp with
    | fatal e => rw [hb] at h; simp at h
    | diverge => rw [hb] at h; simp at h
    | ok r =>
      rw [hb] at h
      simp only at h
      cases hs : r.str with
      | none =>
        rw [hs] at h
        simp at h
        subst h
        have : r1 = [] := by simpa using hlen
        subst this
        exact ⟨fp, r, hb, hs, by simp⟩
      | some b =>
        rw [hs] at h
        simp only at h
        cases hrec : blocksUntilNull k r.fp with
        | fatal e => rw [hrec] at h; simp at h
        | diverge => rw [hrec] at h; simp at h
        | ok bs =>
          rw [hrec] at h
          simp at h
          subst h
          cases r1 with
          | nil => simp at hlen
          | cons s r1 =>
            obtain ⟨fpEnd, r', h1, h2, h3⟩ :=
              ih r.fp bs hrec r1 tail fin (by simpa using hlen) hfin
            refine ⟨fpEnd, r', h1, h2, ?_⟩
            rw [List.cons_append, schedLoop, if_pos hfin, hb]
            simp only [hs, h3]
            simp

/-- The coordinator once no block remains: each ready-request is answered
with the completion signal, and after the last worker the writer is told. -/
theorem schedLoop_done (size : Nat) :
    ∀ (r2 : List Nat) (fp : FILE) (fin : Nat) (r : Built),
      buildNewString fp = .ok r → r.str = none → fin + r2.length = size - 2 →
      schedLoop size r2 fp fin =
        (r2.map (fun s => { dest := s, tag := COMPLETE_TAG, payload := [0] }) ++
          [{ dest := WRITER_PROCESS, tag := COMPLETE_TAG, payload := [0] }], .returned) := by
  intro r2
  induction r2 with
  | nil =>
    intro fp fin r _ _ hfin
    simp only [List.length_nil, Nat.add_zero] at hfin
    simp [schedLoop, hfin]
  | cons s r2 ih =>
    intro fp fin r hb hs hfin
    simp only [List.length_cons] at hfin
    rw [schedLoop, if_pos (by omega), hb]
    simp only [hs]
    rw [ih r.fp (fin + 1) _ (buildNewString_null_again fp r hb hs) rfl (by omega)]
    simp

theorem sendBlock_tags (toSend : List Byte) (sender : Nat) :
    ∀ m ∈ sendBlock toSend sender,
      m.dest = sender ∧ (m.tag = BEGIN_TAG ∨ m.tag = MESSAGE_TAG ∨ m.tag = END_TAG) := by
  obtain ⟨datas, h1, _, _, _⟩ := sendBlock_spec toSend sender
  intro m hm
  rw [h1] at hm
  simp only [List.mem_cons, List.mem_append, List.mem_map, List.mem_singleton,
    List.not_mem_nil, or_false] at hm
  rcases hm with rfl | ⟨p, _, rfl⟩ | rfl <;> simp

theorem zipWith_sendBlock_tags :
    ∀ (blocks : List (List Byte)) (r1 : List Nat),
      ∀ m ∈ (List.zipWith sendBlock blocks r1).flatten,
        m.dest ∈ r1 ∧ (m.tag = BEGIN_TAG ∨ m.tag = MESSAGE_TAG ∨ m.tag = END_TAG) := by
  intro blocks
  induction blocks with
  | nil => intro r1 m hm; simp at hm
  | cons b bs ih =>
    intro r1 m hm
    cases r1 with
    | nil => simp at hm
    | cons s r1 =>
      simp only [List.zipWith_cons_cons, List.flatten_cons, List.mem_append] at hm
      rcases hm with hm | hm
      · obtain ⟨h1, h2⟩ := sendBlock_tags b s m hm
        exact ⟨by simp [h1], h2⟩
      · obtain ⟨h1, h2⟩ := ih r1 m hm
        exact ⟨by simp [h1], h2⟩

/-- Pairwise distinct workers, as many as there are workers, are all the
workers. -/
theorem workers_all (W : Nat) (r2 : List Nat) (hlen : r2.length = W) (hnd : r2.Nodup)
    (hw : ∀ s ∈ r2, 2 ≤ s ∧ s < W + 2) : ∀ w, 2 ≤ w → w < W + 2 → w ∈ r2 := by
  intro w h1 h2
  have hsub : r2.toFinset ⊆ Finset.Ico 2 (W + 2) := by
    intro x hx
    have := hw x (List.mem_toFinset.1 hx)
    exact Finset.mem_Ico.2 this
  have hcard : (Finset.Ico 2 (W + 2)).card ≤ r2.toFinset.card := by
    rw [List.toFinset_card_of_nodup hnd, Nat.card_Ico, hlen]; omega
  have heq := Finset.eq_of_subset_of_card_le hsub hcard
  have : w ∈ Finset.Ico 2 (W + 2) := Finset.mem_Ico.2 ⟨h1, h2⟩
  rw [← heq] at this
  exact List.mem_toFinset.1 this

theorem countP_eq_zero_of_forall {α : Type} (p : α → Bool) (l : List α)
    (h : ∀ x ∈ l, p x = false) : l.countP p = 0 := by
  rw [List.countP_eq_zero]
  intro x hx
  simp [h x hx]

/-- C5 (completion protocol). Let the chunker not abort on the source and
yield the blocks `blocks`, let there be `W ≥ 1` workers (`size = W + 2`), and
let the ready-requests arrive as `r1` followed by `r2`, all from workers,
where `r1` has one request per block and `r2` holds the `W` requests that
follow; that no worker sends a request after it has been sent the completion
signal makes the senders in `r2` pairwise distinct. Then the coordinator
returns, and what it sent is: the framed blocks, in order, each to the sender
of the matching request of `r1` (none of these messages is a completion signal
or goes to the sink); then one completion signal for each request of `r2`,
which is exactly one for every worker; then, last, the one message to the
sink, its completion signal. Once `buildNewString` has returned `NULL` it
returns `NULL` on every later call. With an empty source there is no block and
every reply to a worker is the completion signal. -/
theorem completion_protocol (src : List Byte) (W : Nat) (blocks : List (List Byte))
    (r1 r2 : List Nat) (hW : 1 ≤ W) (hsrc : allBlocks src = .ok blocks)
    (hr1 : r1.length = blocks.length) (hr2 : r2.length = W) (hnodup : r2.Nodup)
    (hworkers : ∀ s ∈ r1 ++ r2, 2 ≤ s ∧ s < W + 2) :
    scheduler src (W + 2) (r1 ++ r2) =
        ((List.zipWith sendBlock blocks r1).flatten ++
          r2.map (fun s => { dest := s, tag := COMPLETE_TAG, payload := [0] }) ++
          [{ dest := WRITER_PROCESS, tag := COMPLETE_TAG, payload := [0] }], .returned) ∧
      (∀ m ∈ (List.zipWith sendBlock blocks r1).flatten,
        m.tag ≠ COMPLETE_TAG ∧ m.dest ≠ WRITER_PROCESS) ∧
      (∀ w, 2 ≤ w → w < W + 2 →
        (scheduler src (W + 2) (r1 ++ r2)).1.countP
          (fun m => decide (m.dest = w ∧ m.tag = COMPLETE_TAG)) = 1) ∧
      (scheduler src (W + 2) (r1 ++ r2)).1.countP
          (fun m => decide (m.dest = WRITER_PROCESS)) = 1 ∧
      (∀ (fp : FILE) (r : Built), buildNewString fp = .ok r → r.str = none →
        buildNewString r.fp = .ok ⟨none, 0, r.fp⟩) ∧
      (src = [] → blocks = []) := by
  have hblockPart : ∀ m ∈ (List.zipWith sendBlock blocks r1).flatten,
      m.tag ≠ COMPLETE_TAG ∧ m.dest ≠ WRITER_PROCESS := by
    intro m hm
    obtain ⟨h1, h2⟩ := zipWith_sendBlock_tags blocks r1 m hm
    have := hworkers m.dest (by simp [h1])
    refine ⟨?_, by simp only [WRITER_PROCESS]; omega⟩
    rcases h2 with h | h | h <;> rw [h] <;> decide
  have hrun : scheduler src (W + 2) (r1 ++ r2) =
      ((List.zipWith sendBlock blocks r1).flatten ++
        r2.map (fun s => { dest := s, tag := COMPLETE_TAG, payload := [0] }) ++
        [{ dest := WRITER_PROCESS, tag := COMPLETE_TAG, payload := [0] }], .returned) := by
    obtain ⟨fpEnd, r, h1, h2, h3⟩ :=
      schedLoop_blocks (W + 2) _ _ _ hsrc r1 r2 0 hr1 (by omega)
    rw [scheduler, h3, schedLoop_done (W + 2) r2 fpEnd 0 r h1 h2 (by omega)]
    simp
  refine ⟨hrun, hblockPart, ?_, ?_, buildNewString_null_again, ?_⟩
  · intro w hw1 hw2
    rw [hrun]
    simp only [List.countP_append, List.countP_cons, List.countP_nil]
    rw [countP_eq_zero_of_forall _ _ (fun m hm => by simp [(hblockPart m hm).1])]
    rw [List.countP_map]
    have hmem := workers_all W r2 hr2 hnodup (fun s hs => hworkers s (by simp [hs])) w hw1 hw2
    have hcount : r2.count w = 1 := List.count_eq_one_of_mem hnodup hmem
    have hfun : ((fun m : Msg => decide (m.dest = w ∧ m.tag = COMPLETE_TAG)) ∘
        fun s => ({ dest := s, tag := COMPLETE_TAG, payload := [0] } : Msg)) =
        fun s => s == w := by
      funext s
      rw [Bool.eq_iff_iff]
      simp
    rw [hfun]
    have hw : ¬ (WRITER_PROCESS = w) := by simp only [WRITER_PROCESS]; omega
    simp only [List.count, List.countP_eq_length_filter] at hcount ⊢
    simp [hw, hcount]
  · rw [hrun]
    simp only [List.countP_append, List.countP_cons, List.countP_nil]
    rw [countP_eq_zero_of_forall _ _ (fun m hm => by simp [(hblockPart m hm).2])]
    rw [countP_eq_zero_of_forall _ _ (fun m hm => by
      obtain ⟨s, hs, rfl⟩ := List.mem_map.1 hm
      have := hworkers s (by simp [hs])
      simp only [WRITER_PROCESS, decide_eq_false_iff_not]; omega)]
    simp
  · intro he
    subst he
    have : allBlocks [] = .ok [] := by decide
    rw [this] at hsrc
    simpa using hsrc.symm

/-- C5, at a source of one record, two workers and three requests. -/
theorem completion_protocol_witness :
    scheduler [62, 97, 10, 65, 10] (2 + 2) ([2] ++ [3, 2]) =
        ((List.zipWith sendBlock [[62, 97, 10, 65, 10]] [2]).flatten ++
          [3, 2].map (fun s => { dest := s, tag := COMPLETE_TAG, payload := [0] }) ++
          [{ dest := WRITER_PROCESS, tag := COMPLETE_TAG, payload := [0] }], .returned) ∧
      (∀ m ∈ (List.zipWith sendBlock [[62, 97, 10, 65, 10]] [2]).flatten,
        m.tag ≠ COMPLETE_TAG ∧ m.dest ≠ WRITER_PROCESS) ∧
      (∀ w, 2 ≤ w → w < 2 + 2 →
        (scheduler [62, 97, 10, 65, 10] (2 + 2) ([2] ++ [3, 2])).1.countP
          (fun m => decide (m.dest = w ∧ m.tag = COMPLETE_TAG)) = 1) ∧
      (scheduler [62, 97, 10, 65, 10] (2 + 2) ([2] ++ [3, 2])).1.countP
          (fun m => decide (m.dest = WRITER_PROCESS)) = 1 ∧
      (∀ (fp : FILE) (r : Built), buildNewString fp = .ok r → r.str = none →
        buildNewString r.fp = .ok ⟨none, 0, r.fp⟩) ∧
      (([62, 97, 10, 65, 10] : List Byte) = [] → [[62, 97, 10, 65, 10]] = ([] : List (List Byte))) :=
  completion_protocol [62, 97, 10, 65, 10] 2 [[62, 97, 10, 65, 10]] [2] [3, 2]
    (by decide) (by decide) rfl rfl (by decide) (by decide)

/-! ## One open Session at the sink -/

theorem sessionLoop_end (w : Nat) (q : List Frame) (st : Sink) :
    sessionLoop w q END_TAG st = (q, st, none) := by
  cases q <;> simp [sessionLoop]

theorem queuesOf_update (sess : Nat → List Session) (cq : List Frame) (sender : Nat)
    (hs : sender ≠ SCHEDULER_PROCESS) (more : List Session) :
    Function.update (queuesOf sess cq) sender ((more.map Session.frames).flatten) =
      queuesOf (Function.update sess sender more) cq := by
  funext x
  by_cases hx : x = sender
  · subst hx
    simp [queuesOf, hs]
  · simp [queuesOf, Function.update, hx]

theorem cstr_append_of_nul (p r : List Byte) (h : 0 ∈ p) : cstr (p ++ r) = cstr p := by
  obtain ⟨a, b, rfl⟩ := List.append_of_mem h
  rw [List.append_assoc, List.cons_append, cstr_append_nul_any, cstr_append_nul_any]

theorem fprintfS_recvInto (buffer p : List Byte) (h : 0 ∈ p) :
    fprintfS (recvInto buffer p) = some (cstr p) := by
  unfold fprintfS recvInto
  rw [if_pos (by simp [h]), cstr_append_of_nul p _ h]

/-- The loop of the sink on the rest of a well-formed Session whose data
payloads each hold a NUL, whatever follows the Session in the queue of the
sender: it consumes the data messages and the end message and nothing after,
and appends each payload up to its first NUL. -/
theorem sessionLoop_datas (w : Nat) (last : List Byte) (rest : List Frame) :
    ∀ (datas : List (List Byte)) (tag : Nat) (st : Sink), tag ≠ END_TAG →
      (∀ p ∈ datas, 0 ∈ p) →
      ∃ buffer : List Byte,
        sessionLoop w
            (datas.map (fun p => { tag := MESSAGE_TAG, payload := p }) ++
              { tag := END_TAG, payload := last } :: rest) tag st =
          (rest,
            ⟨st.file ++ (datas.map cstr).flatten, buffer,
              st.log ++ (datas.map (fun _ => (w, MESSAGE_TAG)) ++ [(w, END_TAG)])⟩,
            none) := by
  intro datas
  induction datas with
  | nil =>
    intro tag st htag _
    refine ⟨recvInto st.buffer last, ?_⟩
    simp only [List.map_nil, List.nil_append]
    rw [sessionLoop, if_pos htag]
    simp [sessionLoop_end]
  | cons p ps ih =>
    intro tag st htag hnul
    obtain ⟨buffer, hrun⟩ := ih MESSAGE_TAG
      (⟨st.file ++ cstr p, recvInto st.buffer p, st.log ++ [(w, MESSAGE_TAG)]⟩ : Sink)
      (by decide) (fun x hx => hnul x (by simp [hx]))
    refine ⟨buffer, ?_⟩
    simp only [List.map_cons, List.cons_append]
    rw [sessionLoop, if_pos htag, if_pos rfl]
    simp only [fprintfS_recvInto st.buffer p (hnul p (by simp))]
    rw [hrun]
    simp

/-- With a NUL in every data payload, the writer loop consumes each opened
Session whole: its file, its log and its end are those of the sink by
Sessions that appends each payload up to its first NUL. -/
theorem writerLoop_by_sessions :
    ∀ (choices : List Nat) (sess : Nat → List Session) (cq : List Frame) (st : Sink),
      (∀ w, ∀ s ∈ sess w, ∀ p ∈ s.datas, 0 ∈ p) →
      ((writerLoop choices (queuesOf sess cq) st).1.file,
        (writerLoop choices (queuesOf sess cq) st).1.log,
        (writerLoop choices (queuesOf sess cq) st).2) =
      sinkBySessions cstr choices sess cq st.file st.log := by
  intro choices
  induction choices with
  | nil => intro sess cq st _; rfl
  | cons sender choices ih =>
    intro sess cq st hnul
    by_cases hs : sender = SCHEDULER_PROCESS
    · subst hs
      cases cq with
      | nil => simp [writerLoop, sinkBySessions, queuesOf]
      | cons f q => simp [writerLoop, sinkBySessions, queuesOf]
    · cases hq : sess sender with
      | nil => simp [writerLoop, sinkBySessions, queuesOf, hs, hq]
      | cons s more =>
        have hqueue : queuesOf sess cq sender =
            { tag := BEGIN_TAG, payload := s.first } ::
              (s.datas.map (fun p => { tag := MESSAGE_TAG, payload := p }) ++
                { tag := END_TAG, payload := s.last } ::
                  (more.map Session.frames).flatten) := by
          simp [queuesOf, hs, hq, Session.frames]
        have hmem : s ∈ sess sender := by rw [hq]; simp
        obtain ⟨buffer, hrun⟩ := sessionLoop_datas sender s.last
          ((more.map Session.frames).flatten) s.datas BEGIN_TAG
          { st with buffer := recvInto st.buffer s.first,
                    log := st.log ++ [(sender, BEGIN_TAG)] } (by decide) (hnul sender s hmem)
        have hnul2 : ∀ w, ∀ x ∈ Function.update sess sender more w, ∀ p ∈ x.datas, 0 ∈ p := by
          intro w x hx
          by_cases hw : w = sender
          · subst hw
            simp only [Function.update_same] at hx
            exact hnul w x (by rw [hq]; simp [hx])
          · rw [Function.update_noteq hw] at hx
            exact hnul w x hx
        have hstep : writerLoop (sender :: choices) (queuesOf sess cq) st =
            writerLoop choices (queuesOf (Function.update sess sender more) cq)
              ⟨st.file ++ (s.datas.map cstr).flatten, buffer,
                st.log ++ [(sender, BEGIN_TAG)] ++
                  (s.datas.map (fun _ => (sender, MESSAGE_TAG)) ++ [(sender, END_TAG)])⟩ := by
          rw [writerLoop, hqueue]
          simp only [if_neg hs, hrun]
          rw [queuesOf_update sess cq sender hs more]
        rw [hstep, ih _ cq _ hnul2]
        simp [sinkBySessions, hs, hq, sessionLog]

/-- The file of the sink by Sessions: the old file, then what is written for
the opened Sessions, whole and in the order they were opened. -/
theorem sinkBySessions_file (written : List Byte → List Byte) :
    ∀ (choices : List Nat) (sess : Nat → List Session) (cq : List Frame) (file : List Byte)
      (log : List (Nat × Nat)),
      (sinkBySessions written choices sess cq file log).1 =
        file ++ ((openedSessions choices sess).map
          (fun ws => (ws.2.datas.map written).flatten)).flatten := by
  intro choices
  induction choices with
  | nil => intro sess cq file log; simp [sinkBySessions, openedSessions]
  | cons sender choices ih =>
    intro sess cq file log
    by_cases hs : sender = SCHEDULER_PROCESS
    · cases cq <;> simp [sinkBySessions, openedSessions, hs]
    · cases hq : sess sender with
      | nil => simp [sinkBySessions, openedSessions, hs, hq]
      | cons s more =>
        simp only [sinkBySessions, openedSessions, if_neg hs, hq]
        rw [ih]
        simp

/-- C7 as stated fails: worker 2 sends a Session with the data payload `C`,
`D`, `E`, NUL and worker 3 a Session with the data payload `A`, `B`; both
Sessions are well formed and the sink opens them in this order. The sink of
the specification appends the payloads, `C D E NUL A B`; the writer appends
`C D E A B E`: what it writes for `A`, `B` runs on into the byte `E` that the
payload of the other Session left in the receive buffer. The file is not the
payloads cut at their first NUL either, `C D E A B`. -/
theorem single_open_session_stale_byte :
    (writerLoop [2, 3]
        (queuesOf
          (fun w => if w = 2 then [⟨[0], [[67, 68, 69, 0]], [0]⟩]
            else if w = 3 then [⟨[0], [[65, 66]], [0]⟩] else [])
          [])
        ⟨[], List.replicate BUFFER_SIZE 0, []⟩).1.file = [67, 68, 69, 65, 66, 69] ∧
    (sinkBySessions verbatim [2, 3]
        (fun w => if w = 2 then [⟨[0], [[67, 68, 69, 0]], [0]⟩]
          else if w = 3 then [⟨[0], [[65, 66]], [0]⟩] else [])
        [] [] []).1 = [67, 68, 69, 0, 65, 66] ∧
    (sinkBySessions cstr [2, 3]
        (fun w => if w = 2 then [⟨[0], [[67, 68, 69, 0]], [0]⟩]
          else if w = 3 then [⟨[0], [[65, 66]], [0]⟩] else [])
        [] [] []).1 = [67, 68, 69, 65, 66] := by
  refine ⟨?_, ?_, ?_⟩
  · decide
  · decide
  · decide

/-- C7, amended. With one queue per sender and any choice of sender at each
receive from any source, when every worker sends well-formed Sessions (begin,
data messages, end) whose data payloads each hold a NUL byte, the sink
consumes each opened Session whole, with no message of another sender between
its first message and its end message, and stops at the first message of the
coordinator, writing nothing for it: file, log and end of the writer are those
of the sink by Sessions that appends each data payload up to its first NUL.
So the output file is what it was, followed by the data payloads of the
opened Sessions, each up to its first NUL, whole Session after whole Session
in the order they were opened. -/
theorem single_open_session (choices : List Nat) (sess : Nat → List Session)
    (cq : List Frame) (st : Sink) (hnul : ∀ w, ∀ s ∈ sess w, ∀ p ∈ s.datas, 0 ∈ p) :
    ((writerLoop choices (queuesOf sess cq) st).1.file,
        (writerLoop choices (queuesOf sess cq) st).1.log,
        (writerLoop choices (queuesOf sess cq) st).2) =
      sinkBySessions cstr choices sess cq st.file st.log ∧
    (writerLoop choices (queuesOf sess cq) st).1.file =
      st.file ++ ((openedSessions choices sess).map (fun ws => ws.2.written)).flatten := by
  have h := writerLoop_by_sessions choices sess cq st hnul
  refine ⟨h, ?_⟩
  have h1 := congrArg Prod.fst h
  simp only at h1
  rw [h1, sinkBySessions_file]
  rfl

/-- C7 amended, at two workers with one Session each, the second opened
first, and the completion signal of the coordinator after them. -/
theorem single_open_session_witness :
    (writerLoop [3, 2, 0]
        (queuesOf
          (fun w => if w = 2 then [⟨[0], [[65, 0], [66, 0]], [0]⟩]
            else if w = 3 then [⟨[0], [[67, 68, 0]], [0]⟩] else [])
          [⟨COMPLETE_TAG, [0]⟩])
        ⟨[1], [], []⟩).1.file = [1, 67, 68, 65, 66] :=
  (single_open_session [3, 2, 0]
    (fun w => if w = 2 then [⟨[0], [[65, 0], [66, 0]], [0]⟩]
      else if w = 3 then [⟨[0], [[67, 68, 0]], [0]⟩] else [])
    [⟨COMPLETE_TAG, [0]⟩] ⟨[1], [], []⟩
    (by
      intro w s hs p hp
      by_cases h2 : w = 2
      · subst h2
        simp only [if_true, List.mem_singleton] at hs
        subst hs
        simp only [List.mem_cons, List.mem_singleton, List.not_mem_nil, or_false] at hp
        rcases hp with rfl | rfl <;> decide
      · by_cases h3 : w = 3
        · subst h3
          simp only [if_neg h2, if_true, List.mem_singleton] at hs
          subst hs
          simp only [List.mem_singleton] at hp
          subst hp
          decide
        · simp [h2, h3] at hs)).2

/-! ## Every call of the chunker returns or exits -/

theorem readLoop_shorter (lim : Nat) :
    ∀ (rest buf b : List Byte) (c : Byte) (r : List Byte),
      readLoop lim buf rest = (b, some c, r) → r.length < rest.length := by
  intro rest
  induction rest with
  | nil => intro buf b c r h; simp [readLoop] at h
  | cons x xs ih =>
    intro buf b c r h
    rw [readLoop] at h
    split at h
    · have := ih _ _ _ _ h
      simp only [List.length_cons]; omega
    · simp only [Prod.mk.injEq] at h
      rw [← h.2.2]; simp

theorem skipToNewline_shorter :
    ∀ (rest r : List Byte), skipToNewline rest = .ok r → r.length < rest.length := by
  intro rest
  induction rest with
  | nil => intro r h; simp [skipToNewline] at h
  | cons x xs ih =>
    intro r h
    rw [skipToNewline] at h
    split at h
    · simp only [Except.ok.injEq] at h
      rw [← h]; simp
    · have := ih r h
      simp only [List.length_cons]; omega

/-- A call of `readLine` that does not return `EOF` reads at least one
byte. -/
theorem readLine_shorter (rest : List Byte) (bufLen : Nat) (ln : Line)
    (h : readLine rest bufLen = .ok ln) (hc : ln.c ≠ none) : ln.rest.length < rest.length := by
  unfold readLine at h
  rcases hl : readLoop (bufLen - 2) [] rest with ⟨buf, c, rest1⟩
  rw [hl] at h
  simp only at h
  cases c with
  | none =>
    exfalso
    apply hc
    by_cases h1 : buf.length ≥ bufLen - 2
    · rw [if_pos h1] at h
      by_cases h2 : buf.head? = some GT
      · rw [if_pos h2] at h
        cases hd : discardHeader none rest1 with
        | error e => rw [hd] at h; simp at h
        | ok rest2 =>
          rw [hd] at h
          simp only at h
          obtain ⟨rfl, _⟩ := readLineEnd_ok _ _ _ _ h
          rfl
      · rw [if_neg h2] at h
        obtain ⟨rfl, _⟩ := readLineEnd_ok _ _ _ _ h
        rfl
    · rw [if_neg h1] at h
      obtain ⟨rfl, _⟩ := readLineEnd_ok _ _ _ _ h
      rfl
  | some x =>
    have hlt := readLoop_shorter _ _ _ _ _ _ hl
    by_cases h1 : buf.length ≥ bufLen - 2
    · rw [if_pos h1] at h
      by_cases h2 : buf.head? = some GT
      · rw [if_pos h2] at h
        cases hd : discardHeader (some x) rest1 with
        | error e => rw [hd] at h; simp at h
        | ok rest2 =>
          rw [hd] at h
          simp only at h
          obtain ⟨rfl, _⟩ := readLineEnd_ok _ _ _ _ h
          simp only
          unfold discardHeader at hd
          split at hd
          · simp only [Except.ok.injEq] at hd
            rw [← hd]; exact hlt
          · have := skipToNewline_shorter _ _ hd
            omega
      · rw [if_neg h2] at h
        obtain ⟨rfl, _⟩ := readLineEnd_ok _ _ _ _ h
        exact hlt
    · rw [if_neg h1] at h
      obtain ⟨rfl, _⟩ := readLineEnd_ok _ _ _ _ h
      exact hlt

theorem buildLoop_returns :
    ∀ (fuel : Nat) (fp : FILE) (st : Locals), fp.rest.length < fuel →
      buildLoop fuel fp st ≠ .diverge := by
  intro fuel
  induction fuel with
  | zero => intro fp st h; omega
  | succ k ih =>
    intro fp st hlen
    rw [buildLoop]
    cases hl : readLine fp.rest 16384 with
    | error e => simp
    | ok ln =>
      simp only
      split
      · split <;> simp
      · rename_i hc
        split
        · split <;> simp
        · split
          · simp
          · have := readLine_shorter _ _ _ hl hc
            exact ih _ _ (by simp only; omega)

/-- The loop budget of `buildNewString` is never used up: every call returns
or exits the process. -/
theorem buildNewString_returns (fp : FILE) : buildNewString fp ≠ .diverge :=
  buildLoop_returns _ _ _ (Nat.lt_succ_self _)

/-- Inside a call that started with `L0` unread bytes: a call that returns a
block leaves fewer than `L0` bytes unread, and the same stream content. -/
theorem buildLoop_progress (L0 : Nat) :
    ∀ (fuel : Nat) (fp : FILE) (st : Locals) (r : Built),
      L0 ≤ fp.data.length → fp.rest.length ≤ L0 →
      (1 ≤ st.querysRead → fp.rest.length < L0) →
      (2 ≤ st.querysRead → fp.data.length - L0 < st.fileOffsetForLastQueryStart) →
      buildLoop fuel fp st = .ok r → r.str ≠ none →
      r.fp.rest.length < L0 ∧ r.fp.data = fp.data := by
  intro fuel
  induction fuel with
  | zero => intro fp st r _ _ _ _ h; simp [buildLoop] at h
  | succ k ih =>
    intro fp st r hD ha hb hc h hs
    rw [buildLoop] at h
    cases hl : readLine fp.rest 16384 with
    | error e => rw [hl] at h; simp at h
    | ok ln =>
      rw [hl] at h
      simp only at h
      split at h
      · rename_i hcn
        have hrest := readLine_eof _ _ _ hl hcn
        split at h
        · rename_i hq
          simp only [Outcome.ok.injEq] at h
          rw [← h]
          simp only [hrest, List.length_nil]
          have := hb (by omega)
          exact ⟨by omega, trivial⟩
        · simp only [Outcome.ok.injEq] at h
          rw [← h] at hs; simp at hs
      · rename_i hcn
        have hshort := readLine_shorter _ _ _ hl hcn
        split at h
        · rename_i hov
          have hb1 := hb (by omega)
          split at h
          · simp only [Outcome.ok.injEq] at h
            rw [← h]
            have hc1 := hc (by omega)
            simp only [fseek, List.length_drop]
            exact ⟨by omega, trivial⟩
          · simp only [Outcome.ok.injEq] at h
            rw [← h]
            simp only [fseek, ftell, List.length_drop]
            exact ⟨by omega, trivial⟩
        · split at h
          · simp at h
          · have := ih _ _ r (by simpa using hD) (by simp only; omega)
              (by intro _; simp only; omega)
              (by
                simp only
                intro hq
                split
                · rename_i hh
                  rw [if_pos hh] at hq
                  have := hb (by omega)
                  simp only [ftell]; omega
                · rename_i hh
                  rw [if_neg hh] at hq
                  exact hc hq) h hs
            exact ⟨this.1, this.2⟩

/-- A call of `buildNewString` that returns a block leaves the stream
strictly beyond where it was: fewer bytes are unread than before the call. -/
theorem buildNewString_progress (fp : FILE) (r : Built) (hfp : fp.rest.length ≤ fp.data.length)
    (h : buildNewString fp = .ok r) (hs : r.str ≠ none) :
    r.fp.rest.length < fp.rest.length ∧ r.fp.data = fp.data :=
  buildLoop_progress fp.rest.length _ fp _ r hfp (Nat.le_refl _)
    (by intro hq; simp at hq) (by intro hq; simp at hq) h hs

theorem blocksUntilNull_returns :
    ∀ (fuel : Nat) (fp : FILE), fp.rest.length ≤ fp.data.length → fp.rest.length < fuel →
      blocksUntilNull fuel fp ≠ .diverge := by
  intro fuel
  induction fuel with
  | zero => intro fp _ h; omega
  | succ k ih =>
    intro fp hfp hlen
    rw [blocksUntilNull]
    cases hb : buildNewString fp with
    | fatal e => simp
    | diverge => exact absurd hb (buildNewString_returns fp)
    | ok r =>
      simp only
      cases hs : r.str with
      | none => simp
      | some b =>
        simp only
        obtain ⟨h1, h2⟩ := buildNewString_progress fp r hfp hb (by rw [hs]; simp)
        have := ih r.fp (by rw [h2]; omega) (by omega)
        cases hrec : blocksUntilNull k r.fp with
        | fatal e => simp
        | diverge => exact absurd hrec this
        | ok bs => simp

/-- The calls of the coordinator on a source reach `NULL` or an exit of the
process: the call budget of `allBlocks` is never used up. -/
theorem allBlocks_returns (src : List Byte) : allBlocks src ≠ .diverge :=
  blocksUntilNull_returns _ _ (Nat.le_refl _) (Nat.lt_succ_self _)

/-! ## Runs of the chunker on sources at its limits -/

theorem readLoop_full (lim : Nat) (line : List Byte) :
    ∀ (buf : List Byte) (b : Byte) (r : List Byte), NL ∉ line → buf.length + line.length = lim →
      readLoop lim buf (line ++ b :: r) = (buf ++ line, some b, r) := by
  induction line with
  | nil =>
    intro buf b r _ h
    simp only [List.length_nil, Nat.add_zero] at h
    simp [readLoop, h]
  | cons a l ih =>
    intro buf b r hnl hlen
    have ha : a ≠ NL := fun e => hnl (by simp [e])
    have hl : NL ∉ l := fun e => hnl (by simp [e])
    simp only [List.length_cons] at hlen
    have hlt : buf.length < lim := by omega
    have e : (a :: l) ++ b :: r = a :: (l ++ b :: r) := rfl
    rw [e, readLoop, if_pos ⟨ha, hlt⟩, ih (buf ++ [a]) b r hl (by simp; omega)]
    simp

/-- A line that is not a header and reaches the maximum of the line reader:
the buffer receives the maximum and the character read after it. -/
theorem readLine_piece (bufLen : Nat) (line : List Byte) (b : Byte) (r : List Byte)
    (hnl : NL ∉ line) (hlen : line.length = bufLen - 2) (hhead : line.head? ≠ some GT) :
    readLine (line ++ b :: r) bufLen = .ok { buf := line ++ [b], c := some b, rest := r } := by
  unfold readLine
  rw [readLoop_full (bufLen - 2) line [] b r hnl (by simp; omega)]
  simp only [List.nil_append, ge_iff_le]
  rw [if_pos (by omega), if_neg hhead]
  simp [readLineEnd]


/-- One iteration of the loop of `buildNewString` when the line read fits the
allocated size. -/
theorem buildLoop_fits (fuel : Nat) (data rest F : List Byte) (q bo fo a : Nat) (ln : Line)
    (h : readLine rest 16384 = .ok ln) (hc : ln.c ≠ none)
    (hfit : F.length + (cstr ln.buf).length + 2 ≤ a) :
    buildLoop (fuel + 1) { data := data, rest := rest }
        { finalString := F, querysRead := q, bufferOffsetForLastQueryStart := bo,
          fileOffsetForLastQueryStart := fo, allocSize := a } =
      buildLoop fuel { data := data, rest := ln.rest }
        { finalString := F ++ cstr ln.buf ++ [NL],
          querysRead := if bufHead ln.buf = GT then q + 1 else q,
          bufferOffsetForLastQueryStart := if bufHead ln.buf = GT then F.length else bo,
          fileOffsetForLastQueryStart :=
            if bufHead ln.buf = GT then ftell { data := data, rest := rest } else fo,
          allocSize := a } := by
  rw [buildLoop]
  simp only [h, if_neg hc]
  rw [if_neg (by omega), growAlloc_fits _ 31 _ hfit]

/-- One iteration of the loop of `buildNewString` when the line read does not
fit and at most one query has been counted: the allocated size is doubled. -/
theorem buildLoop_grows (fuel : Nat) (data rest F : List Byte) (q bo fo a : Nat) (ln : Line)
    (h : readLine rest 16384 = .ok ln) (hc : ln.c ≠ none) (hq : q ≤ 1)
    (h1 : a < F.length + (cstr ln.buf).length + 2)
    (h2 : F.length + (cstr ln.buf).length + 2 ≤ a * 2) (h3 : a * 2 ≤ INT_MAX) :
    buildLoop (fuel + 1) { data := data, rest := rest }
        { finalString := F, querysRead := q, bufferOffsetForLastQueryStart := bo,
          fileOffsetForLastQueryStart := fo, allocSize := a } =
      buildLoop fuel { data := data, rest := ln.rest }
        { finalString := F ++ cstr ln.buf ++ [NL],
          querysRead := if bufHead ln.buf = GT then q + 1 else q,
          bufferOffsetForLastQueryStart := if bufHead ln.buf = GT then F.length else bo,
          fileOffsetForLastQueryStart :=
            if bufHead ln.buf = GT then ftell { data := data, rest := rest } else fo,
          allocSize := a * 2 } := by
  rw [buildLoop]
  simp only [h, if_neg hc]
  rw [if_neg (by omega), growAlloc_once _ 30 _ h1 h2 h3]

theorem blocksUntilNull_one (fuel : Nat) (fp : FILE) (block data : List Byte) (n : Nat)
    (h : buildNewString fp = .ok ⟨some block, n, ⟨data, []⟩⟩) :
    blocksUntilNull (fuel + 2) fp = .ok [block] := by
  rw [blocksUntilNull, h]
  simp only
  rw [blocksUntilNull, buildNewString_at_end]

theorem not_mem_replicate (n : Nat) (a b : Byte) (h : b ≠ a) : b ∉ List.replicate n a := by
  intro hm
  exact h (List.eq_of_mem_replicate hm)

theorem head_replicate_ne (n : Nat) (a : Byte) (h : a ≠ GT) :
    (List.replicate n a).head? ≠ some GT := by
  cases n with
  | zero => simp
  | succ k => simpa [List.replicate] using h

/-- A header, then a line of the maximum of the line reader and one more
byte, with no line break at the end of the source: the call returns a block,
and the next call returns `NULL`. -/
theorem unterminated_general (body : List Byte) (b : Byte) (hlen : body.length = 16382)
    (hnl : NL ∉ body) (hnul : 0 ∉ body) (hb : b ≠ 0) (hhead : body.head? ≠ some GT) :
    allBlocks ([62, 104] ++ NL :: (body ++ b :: [])) =
      .ok [([62, 104] ++ NL :: (body ++ b :: [])) ++ [NL]] := by
  have hc1 : cstr [62, 104] = [62, 104] := by decide
  have hc2 : cstr (body ++ [b]) = body ++ [b] :=
    cstr_of_no_nul _ (by simp [hnul, hb.symm])
  have hh2 : bufHead (body ++ [b]) ≠ GT := by
    apply bufHead_ne_of_head
    cases body with
    | nil => simp at hlen
    | cons x xs => simpa using hhead
  have hcall : buildNewString (fopen ([62, 104] ++ NL :: (body ++ b :: []))) =
      .ok ⟨some (([62, 104] ++ NL :: (body ++ b :: [])) ++ [NL]), 1,
        ⟨[62, 104] ++ NL :: (body ++ b :: []), []⟩⟩ := by
    unfold buildNewString fopen
    rw [buildLoop_fits _ _ _ _ _ _ _ _ _ (readLine_line 16384 [62, 104] _ (by decide) (by decide))
      (by simp) (by rw [hc1]; decide)]
    simp only [hc1, (by decide : bufHead [62, 104] = GT), if_true, List.length_append,
      List.length_cons, List.length_nil, hlen]
    rw [buildLoop_fits _ _ _ _ _ _ _ _ _ (readLine_piece 16384 body b [] hnl (by omega) hhead)
      (by simp) (by rw [hc2]; simp [hlen]; decide)]
    simp only [hc2, if_neg hh2]
    rw [buildLoop_eof]
    simp
  unfold allBlocks
  have : ([62, 104] ++ NL :: (body ++ b :: [])).length + 1 = 16385 + 2 := by
    simp [hlen]
  rw [this, blocksUntilNull_one _ _ _ _ _ hcall]

/-- C8, the code at the failing input: the source is a header line followed
by 16383 bytes `A` with no line break after them. It is not empty and its last
byte is not a line break, yet no call exits the process: the first call
returns a block (the source with a line break added) and the second returns
`NULL`. -/
theorem unterminated_line_not_fatal :
    ([62, 104] ++ NL :: (List.replicate 16382 65 ++ 65 :: [])).getLast? = some 65 ∧
    allBlocks ([62, 104] ++ NL :: (List.replicate 16382 65 ++ 65 :: [])) =
      .ok [([62, 104] ++ NL :: (List.replicate 16382 65 ++ 65 :: [])) ++ [NL]] := by
  refine ⟨?_, unterminated_general (List.replicate 16382 65) 65 (List.length_replicate _ _)
    (not_mem_replicate _ _ _ (by decide)) (not_mem_replicate _ _ _ (by decide)) (by decide)
    (head_replicate_ne _ _ (by decide))⟩
  rw [← List.cons_append, ← List.append_assoc, List.getLast?_append]
  rfl

/-- C10, the code at the failing input: a line of 16382 bytes `A` that is not
a header, followed by its line break. The buffer `readLine` returns for it
ends with the line break, and the block built from a header and this line
holds the line followed by two line breaks. -/
theorem full_line_keeps_line_break :
    readLine (List.replicate 16382 65 ++ NL :: []) 16384 =
        .ok { buf := List.replicate 16382 65 ++ [NL], c := some NL, rest := [] } ∧
    allBlocks ([62, 104] ++ NL :: (List.replicate 16382 65 ++ NL :: [])) =
      .ok [([62, 104] ++ NL :: (List.replicate 16382 65 ++ NL :: [])) ++ [NL]] :=
  ⟨readLine_piece 16384 (List.replicate 16382 65) NL []
      (not_mem_replicate _ _ _ (by decide)) (List.length_replicate _ _)
      (head_replicate_ne _ _ (by decide)),
    unterminated_general (List.replicate 16382 65) NL (List.length_replicate _ _)
      (not_mem_replicate _ _ _ (by decide)) (not_mem_replicate _ _ _ (by decide)) (by decide)
      (head_replicate_ne _ _ (by decide))⟩

/-- Two records, the first of 19998 bytes: the header of the second does not
fit the block limit while one query is counted, so the allocated size is
doubled and both records are returned in one block. -/
theorem two_records_general (b1 b2 : List Byte) (h1 : b1.length = 16000)
    (h2 : b2.length = 3993) (hnl1 : NL ∉ b1) (hnl2 : NL ∉ b2) (hnul1 : 0 ∉ b1)
    (hnul2 : 0 ∉ b2) (hh1 : b1.head? ≠ some GT) (hh2 : b2.head? ≠ some GT) :
    buildNewString (fopen ([62, 97] ++ NL :: (b1 ++ NL :: (b2 ++ NL ::
        ([62, 98] ++ NL :: ([65, 67] ++ NL :: [])))))) =
      .ok ⟨some ([62, 97] ++ NL :: (b1 ++ NL :: (b2 ++ NL ::
        ([62, 98] ++ NL :: ([65, 67] ++ NL :: []))))), 2,
        ⟨[62, 97] ++ NL :: (b1 ++ NL :: (b2 ++ NL ::
          ([62, 98] ++ NL :: ([65, 67] ++ NL :: [])))), []⟩⟩ := by
  have hca : cstr [62, 97] = [62, 97] := by decide
  have hcb : cstr [62, 98] = [62, 98] := by decide
  have hcc : cstr [65, 67] = [65, 67] := by decide
  have hc1 := cstr_of_no_nul b1 hnul1
  have hc2 := cstr_of_no_nul b2 hnul2
  have hb1 := bufHead_ne_of_head b1 hh1
  have hb2 := bufHead_ne_of_head b2 hh2
  unfold buildNewString fopen
  rw [buildLoop_fits _ _ _ _ _ _ _ _ _ (readLine_line 16384 [62, 97] _ (by decide) (by decide))
    (by simp) (by rw [hca]; decide)]
  simp only [hca, (by decide : bufHead [62, 97] = GT), if_true, List.length_append,
    List.length_cons, List.length_nil, h1, h2]
  rw [buildLoop_fits _ _ _ _ _ _ _ _ _ (readLine_line 16384 b1 _ hnl1 (by omega))
    (by simp) (by rw [hc1]; simp only [List.length_append, List.length_cons, List.length_nil,
      h1, BLOCK_SIZE]; omega)]
  simp only [hc1, if_neg hb1]
  rw [buildLoop_fits _ _ _ _ _ _ _ _ _ (readLine_line 16384 b2 _ hnl2 (by omega))
    (by simp) (by rw [hc2]; simp only [List.length_append, List.length_cons, List.length_nil,
      h1, h2, BLOCK_SIZE]; omega)]
  simp only [hc2, if_neg hb2]
  rw [buildLoop_grows _ _ _ _ _ _ _ _ _ (readLine_line 16384 [62, 98] _ (by decide) (by decide))
    (by simp) (by omega)
    (by rw [hcb]; simp only [List.length_append, List.length_cons, List.length_nil,
      h1, h2, BLOCK_SIZE]; omega)
    (by rw [hcb]; simp only [List.length_append, List.length_cons, List.length_nil,
      h1, h2, BLOCK_SIZE]; omega)
    (by decide)]
  simp only [hcb, (by decide : bufHead [62, 98] = GT), if_true]
  rw [buildLoop_fits _ _ _ _ _ _ _ _ _ (readLine_line 16384 [65, 67] _ (by decide) (by decide))
    (by simp) (by rw [hcc]; simp only [List.length_append, List.length_cons, List.length_nil,
      h1, h2, BLOCK_SIZE]; omega)]
  simp only [hcc, (by decide : ¬ bufHead [65, 67] = GT), if_false]
  rw [buildLoop_eof]
  simp

theorem goodLine_replicate (n : Nat) (h : n < 16382) :
    GoodLine (List.replicate n 65) ∧ (List.replicate n 65).head? ≠ some GT :=
  ⟨⟨by rw [List.length_replicate]; exact h, not_mem_replicate _ _ _ (by decide),
    not_mem_replicate _ _ _ (by decide)⟩, head_replicate_ne _ _ (by decide)⟩

theorem render_two_records (h1 b1 b2 h2 l : List Byte) :
    renderRecords [⟨h1, [b1, b2]⟩, ⟨h2, [l]⟩] =
      h1 ++ NL :: (b1 ++ NL :: (b2 ++ NL :: (h2 ++ NL :: (l ++ NL :: [])))) := by
  simp [renderRecords, Record.bytes, renderLines]

theorem wellFormed_two_lines (n1 n2 : Nat) (h1 : n1 < 16382) (h2 : n2 < 16382) :
    (⟨[62, 97], [List.replicate n1 65, List.replicate n2 65]⟩ : Record).WellFormed := by
  have hg : GoodLine [62, 97] := by decide
  refine ⟨rfl, hg, ?_⟩
  intro l hl
  simp only [List.mem_cons, List.mem_singleton, List.not_mem_nil, or_false] at hl
  rcases hl with rfl | rfl
  · exact goodLine_replicate n1 h1
  · exact goodLine_replicate n2 h2

/-- C3, the code at the failing input: a record of 19998 bytes (header `>a`,
payload lines of 16000 and 3993 bytes `A`) followed by the record `>b`, `AC`.
Both records are well formed and each fits the block limit; the call at the
start of the source returns one block that holds both records and has 20004
bytes, more than the block limit of 20000. -/
theorem block_of_two_records_over_limit :
    (⟨[62, 97], [List.replicate 16000 65, List.replicate 3993 65]⟩ : Record).WellFormed ∧
    (⟨[62, 98], [[65, 67]]⟩ : Record).WellFormed ∧
    (⟨[62, 97], [List.replicate 16000 65, List.replicate 3993 65]⟩ : Record).bytes.length =
      19998 ∧
    buildNewString (fopen (renderRecords
        [⟨[62, 97], [List.replicate 16000 65, List.replicate 3993 65]⟩,
          ⟨[62, 98], [[65, 67]]⟩])) =
      .ok ⟨some (renderRecords
        [⟨[62, 97], [List.replicate 16000 65, List.replicate 3993 65]⟩,
          ⟨[62, 98], [[65, 67]]⟩]), 2,
        ⟨renderRecords
          [⟨[62, 97], [List.replicate 16000 65, List.replicate 3993 65]⟩,
            ⟨[62, 98], [[65, 67]]⟩], []⟩⟩ ∧
    (renderRecords
        [⟨[62, 97], [List.replicate 16000 65, List.replicate 3993 65]⟩,
          ⟨[62, 98], [[65, 67]]⟩]).length = BLOCK_SIZE + 4 := by
  refine ⟨wellFormed_two_lines 16000 3993 (by decide) (by decide), by decide, ?_, ?_, ?_⟩
  · simp only [Record.bytes, renderLines, List.length_append, List.length_cons,
      List.length_nil, List.length_replicate]
  · rw [render_two_records]
    exact two_records_general (List.replicate 16000 65) (List.replicate 3993 65)
      (List.length_replicate _ _) (List.length_replicate _ _)
      (not_mem_replicate _ _ _ (by decide)) (not_mem_replicate _ _ _ (by decide))
      (not_mem_replicate _ _ _ (by decide)) (not_mem_replicate _ _ _ (by decide))
      (head_replicate_ne _ _ (by decide)) (head_replicate_ne _ _ (by decide))
  · rw [render_two_records]
    simp only [List.length_append, List.length_cons, List.length_nil, List.length_replicate]

/-- An oversized record followed by a small one: the allocated size is doubled
for the last line of the first record and the second record is added to the
same block. -/
theorem oversized_then_small_general (b1 b2 : List Byte) (h1 : b1.length = 16000)
    (h2 : b2.length = 4000) (hnl1 : NL ∉ b1) (hnl2 : NL ∉ b2) (hnul1 : 0 ∉ b1)
    (hnul2 : 0 ∉ b2) (hh1 : b1.head? ≠ some GT) (hh2 : b2.head? ≠ some GT) :
    buildNewString (fopen ([62, 97] ++ NL :: (b1 ++ NL :: (b2 ++ NL ::
        ([62, 98] ++ NL :: ([65, 67] ++ NL :: [])))))) =
      .ok ⟨some ([62, 97] ++ NL :: (b1 ++ NL :: (b2 ++ NL ::
        ([62, 98] ++ NL :: ([65, 67] ++ NL :: []))))), 2,
        ⟨[62, 97] ++ NL :: (b1 ++ NL :: (b2 ++ NL ::
          ([62, 98] ++ NL :: ([65, 67] ++ NL :: [])))), []⟩⟩ := by
  have hca : cstr [62, 97] = [62, 97] := by decide
  have hcb : cstr [62, 98] = [62, 98] := by decide
  have hcc : cstr [65, 67] = [65, 67] := by decide
  have hc1 := cstr_of_no_nul b1 hnul1
  have hc2 := cstr_of_no_nul b2 hnul2
  have hb1 := bufHead_ne_of_head b1 hh1
  have hb2 := bufHead_ne_of_head b2 hh2
  unfold buildNewString fopen
  rw [buildLoop_fits _ _ _ _ _ _ _ _ _ (readLine_line 16384 [62, 97] _ (by decide) (by decide))
    (by simp) (by rw [hca]; decide)]
  simp only [hca, (by decide : bufHead [62, 97] = GT), if_true, List.length_append,
    List.length_cons, List.length_nil, h1, h2]
  rw [buildLoop_fits _ _ _ _ _ _ _ _ _ (readLine_line 16384 b1 _ hnl1 (by omega))
    (by simp) (by rw [hc1]; simp only [List.length_append, List.length_cons, List.length_nil,
      h1, BLOCK_SIZE]; omega)]
  simp only [hc1, if_neg hb1]
  rw [buildLoop_grows _ _ _ _ _ _ _ _ _ (readLine_line 16384 b2 _ hnl2 (by omega))
    (by simp) (by omega)
    (by rw [hc2]; simp only [List.length_append, List.length_cons, List.length_nil,
      h1, h2, BLOCK_SIZE]; omega)
    (by rw [hc2]; simp only [List.length_append, List.length_cons, List.length_nil,
      h1, h2, BLOCK_SIZE]; omega)
    (by decide)]
  simp only [hc2, if_neg hb2]
  rw [buildLoop_fits _ _ _ _ _ _ _ _ _ (readLine_line 16384 [62, 98] _ (by decide) (by decide))
    (by simp) (by rw [hcb]; simp only [List.length_append, List.length_cons, List.length_nil,
      h1, h2, BLOCK_SIZE]; omega)]
  simp only [hcb, (by decide : bufHead [62, 98] = GT), if_true]
  rw [buildLoop_fits _ _ _ _ _ _ _ _ _ (readLine_line 16384 [65, 67] _ (by decide) (by decide))
    (by simp) (by rw [hcc]; simp only [List.length_append, List.length_cons, List.length_nil,
      h1, h2, BLOCK_SIZE]; omega)]
  simp only [hcc, (by decide : ¬ bufHead [65, 67] = GT), if_false]
  rw [buildLoop_eof]
  simp

/-- C4, the code at the failing input: a record of 20005 bytes (header `>a`,
payload lines of 16000 and 4000 bytes `A`), larger than the block limit,
followed by the record `>b`, `AC`; both are well formed. The call at the
start of the source returns one block that holds the oversized record and the
record after it. -/
theorem oversized_record_not_alone :
    (⟨[62, 97], [List.replicate 16000 65, List.replicate 4000 65]⟩ : Record).WellFormed ∧
    (⟨[62, 98], [[65, 67]]⟩ : Record).WellFormed ∧
    (⟨[62, 97], [List.replicate 16000 65, List.replicate 4000 65]⟩ : Record).bytes.length =
      BLOCK_SIZE + 5 ∧
    buildNewString (fopen (renderRecords
        [⟨[62, 97], [List.replicate 16000 65, List.replicate 4000 65]⟩,
          ⟨[62, 98], [[65, 67]]⟩])) =
      .ok ⟨some (renderRecords
        [⟨[62, 97], [List.replicate 16000 65, List.replicate 4000 65]⟩,
          ⟨[62, 98], [[65, 67]]⟩]), 2,
        ⟨renderRecords
          [⟨[62, 97], [List.replicate 16000 65, List.replicate 4000 65]⟩,
            ⟨[62, 98], [[65, 67]]⟩], []⟩⟩ := by
  refine ⟨wellFormed_two_lines 16000 4000 (by decide) (by decide), by decide, ?_, ?_⟩
  · simp only [Record.bytes, renderLines, List.length_append, List.length_cons,
      List.length_nil, List.length_replicate]
  · rw [render_two_records]
    exact oversized_then_small_general (List.replicate 16000 65) (List.replicate 4000 65)
      (List.length_replicate _ _) (List.length_replicate _ _)
      (not_mem_replicate _ _ _ (by decide)) (not_mem_replicate _ _ _ (by decide))
      (not_mem_replicate _ _ _ (by decide)) (not_mem_replicate _ _ _ (by decide))
      (head_replicate_ne _ _ (by decide)) (head_replicate_ne _ _ (by decide))

/-! ## The exact-fit boundary -/

/-- A record of 20000 bytes whose header holds a NUL: the block keeps the
header up to the NUL only. -/
theorem nul_record_general (b1 b2 : List Byte) (h1 : b1.length = 16000)
    (h2 : b2.length = 3994) (hnl1 : NL ∉ b1) (hnl2 : NL ∉ b2) (hnul1 : 0 ∉ b1)
    (hnul2 : 0 ∉ b2) (hh1 : b1.head? ≠ some GT) (hh2 : b2.head? ≠ some GT) :
    buildNewString (fopen ([62, 0, 97] ++ NL :: (b1 ++ NL :: (b2 ++ NL :: [])))) =
      .ok ⟨some ([62] ++ NL :: (b1 ++ NL :: (b2 ++ NL :: []))), 1,
        ⟨[62, 0, 97] ++ NL :: (b1 ++ NL :: (b2 ++ NL :: [])), []⟩⟩ := by
  have hca : cstr [62, 0, 97] = [62] := by decide
  have hc1 := cstr_of_no_nul b1 hnul1
  have hc2 := cstr_of_no_nul b2 hnul2
  have hb1 := bufHead_ne_of_head b1 hh1
  have hb2 := bufHead_ne_of_head b2 hh2
  unfold buildNewString fopen
  rw [buildLoop_fits _ _ _ _ _ _ _ _ _
    (readLine_line 16384 [62, 0, 97] _ (by decide) (by decide))
    (by simp) (by rw [hca]; decide)]
  simp only [hca, (by decide : bufHead [62, 0, 97] = GT), if_true, List.length_append,
    List.length_cons, List.length_nil, h1, h2]
  rw [buildLoop_fits _ _ _ _ _ _ _ _ _ (readLine_line 16384 b1 _ hnl1 (by omega))
    (by simp) (by rw [hc1]; simp only [List.length_append, List.length_cons, List.length_nil,
      h1, BLOCK_SIZE]; omega)]
  simp only [hc1, if_neg hb1]
  rw [buildLoop_fits _ _ _ _ _ _ _ _ _ (readLine_line 16384 b2 _ hnl2 (by omega))
    (by simp) (by rw [hc2]; simp only [List.length_append, List.length_cons, List.length_nil,
      h1, h2, BLOCK_SIZE]; omega)]
  simp only [hc2, if_neg hb2]
  rw [buildLoop_eof]
  simp

theorem bytes_two_lines (h b1 b2 : List Byte) :
    (⟨h, [b1, b2]⟩ : Record).bytes = h ++ NL :: (b1 ++ NL :: (b2 ++ NL :: [])) := rfl

/-- C9 as stated fails: the source is one record of exactly 20000 bytes, the
header line `>`, NUL, `a` and payload lines of 16000 and 3994 bytes `A`; the
header starts with `>`, no payload line does, and every line is shorter than
the maximum of the line reader and followed by a line break. The first call
returns a block of 19998 bytes, which is not the source. -/
theorem exact_fit_nul_header :
    (∀ l ∈ [[62, 0, 97], List.replicate 16000 65, List.replicate 3994 65],
      l.length < 16382 ∧ NL ∉ l) ∧
    (∀ l ∈ [List.replicate 16000 65, List.replicate 3994 65], l.head? ≠ some GT) ∧
    (⟨[62, 0, 97], [List.replicate 16000 65, List.replicate 3994 65]⟩ : Record).bytes.length =
      BLOCK_SIZE ∧
    buildNewString (fopen
        (⟨[62, 0, 97], [List.replicate 16000 65, List.replicate 3994 65]⟩ : Record).bytes) =
      .ok ⟨some ([62] ++ NL :: (List.replicate 16000 65 ++ NL ::
        (List.replicate 3994 65 ++ NL :: []))), 1,
        ⟨(⟨[62, 0, 97], [List.replicate 16000 65, List.replicate 3994 65]⟩ : Record).bytes,
          []⟩⟩ ∧
    [62] ++ NL :: (List.replicate 16000 65 ++ NL :: (List.replicate 3994 65 ++ NL :: [])) ≠
      (⟨[62, 0, 97], [List.replicate 16000 65, List.replicate 3994 65]⟩ : Record).bytes := by
  refine ⟨?_, ?_, ?_, ?_, ?_⟩
  · intro l hl
    simp only [List.mem_cons, List.mem_singleton, List.not_mem_nil, or_false] at hl
    rcases hl with rfl | rfl | rfl
    · decide
    · exact ⟨(goodLine_replicate 16000 (by decide)).1.1, (goodLine_replicate 16000 (by decide)).1.2.1⟩
    · exact ⟨(goodLine_replicate 3994 (by decide)).1.1, (goodLine_replicate 3994 (by decide)).1.2.1⟩
  · intro l hl
    simp only [List.mem_cons, List.mem_singleton, List.not_mem_nil, or_false] at hl
    rcases hl with rfl | rfl
    · exact head_replicate_ne _ _ (by decide)
    · exact head_replicate_ne _ _ (by decide)
  · simp only [Record.bytes, renderLines, List.length_append, List.length_cons,
      List.length_nil, List.length_replicate]
  · rw [bytes_two_lines]
    exact nul_record_general (List.replicate 16000 65) (List.replicate 3994 65)
      (List.length_replicate _ _) (List.length_replicate _ _)
      (not_mem_replicate _ _ _ (by decide)) (not_mem_replicate _ _ _ (by decide))
      (not_mem_replicate _ _ _ (by decide)) (not_mem_replicate _ _ _ (by decide))
      (head_replicate_ne _ _ (by decide)) (head_replicate_ne _ _ (by decide))
  · rw [bytes_two_lines]
    intro h
    have := congrArg List.length h
    simp only [List.length_append, List.length_cons, List.length_nil,
      List.length_replicate] at this
    omega

/-- C9, amended. For every source that is a single well-formed record (one
header line and payload lines, each line shorter than the maximum of the line
reader, followed by a line break and holding no NUL byte) whose size is
exactly the block limit, the first call of `buildNewString` returns one block
equal to the whole source and the second call returns `NULL`: exactly one
block is produced and it is the record. -/
theorem exact_fit (r : Record) (hwf : r.WellFormed) (hsize : r.bytes.length = BLOCK_SIZE) :
    ∃ n : Nat,
      buildNewString (fopen r.bytes) =
        .ok ⟨some r.bytes, n, ⟨r.bytes, []⟩⟩ ∧
      buildNewString ⟨r.bytes, []⟩ = .ok ⟨none, 0, ⟨r.bytes, []⟩⟩ ∧
      allBlocks r.bytes = .ok [r.bytes] := by
  obtain ⟨R1, R2, n, hR, hcall⟩ := buildNewString_at_record [] r []
    (by intro x hx; simp at hx; subst hx; exact hwf) (by rw [hsize])
  have h1 : R1 = [] := by
    cases R1 with
    | nil => rfl
    | cons x xs => simp at hR
  have h2 : R2 = [] := by
    cases R2 with
    | nil => rfl
    | cons x xs => simp at hR
  subst h1; subst h2
  simp only [renderRecords, List.append_nil, List.nil_append] at hcall
  have hcall2 : buildNewString (fopen r.bytes) = .ok ⟨some r.bytes, n, ⟨r.bytes, []⟩⟩ := hcall
  refine ⟨n, hcall2, buildNewString_at_end _, ?_⟩
  unfold allBlocks
  have hlen : r.bytes.length + 1 = 19999 + 2 := by rw [hsize]
  rw [hlen, blocksUntilNull_one _ _ _ _ _ hcall2]

/-- C9 amended, at the record with the header `>a` and payload lines of 16000
and 3995 bytes `A`, of 20000 bytes in all. -/
theorem exact_fit_witness :
    ∃ n : Nat,
      buildNewString (fopen
          (⟨[62, 97], [List.replicate 16000 65, List.replicate 3995 65]⟩ : Record).bytes) =
        .ok ⟨some (⟨[62, 97], [List.replicate 16000 65, List.replicate 3995 65]⟩ : Record).bytes,
          n, ⟨(⟨[62, 97], [List.replicate 16000 65, List.replicate 3995 65]⟩ : Record).bytes,
            []⟩⟩ ∧
      buildNewString
          ⟨(⟨[62, 97], [List.replicate 16000 65, List.replicate 3995 65]⟩ : Record).bytes, []⟩ =
        .ok ⟨none, 0,
          ⟨(⟨[62, 97], [List.replicate 16000 65, List.replicate 3995 65]⟩ : Record).bytes, []⟩⟩ ∧
      allBlocks (⟨[62, 97], [List.replicate 16000 65, List.replicate 3995 65]⟩ : Record).bytes =
        .ok [(⟨[62, 97], [List.replicate 16000 65, List.replicate 3995 65]⟩ : Record).bytes] :=
  exact_fit ⟨[62, 97], [List.replicate 16000 65, List.replicate 3995 65]⟩
    (wellFormed_two_lines 16000 3995 (by decide) (by decide))
    (by simp only [Record.bytes, renderLines, List.length_append, List.length_cons,
      List.length_nil, List.length_replicate])

/-! ## Header truncation -/

theorem skipToNewline_line (q : List Byte) :
    ∀ (rest : List Byte), NL ∉ q → skipToNewline (q ++ NL :: rest) = .ok rest := by
  induction q with
  | nil => intro rest _; simp [skipToNewline]
  | cons a q ih =>
    intro rest hnl
    have ha : a ≠ NL := fun e => hnl (by simp [e])
    have hq : NL ∉ q := fun e => hnl (by simp [e])
    have e : (a :: q) ++ NL :: rest = a :: (q ++ NL :: rest) := rfl
    rw [e, skipToNewline, if_neg ha, ih rest hq]

/-- A header line that reaches the maximum of the line reader: the buffer
receives the maximum, the rest of the line is read and dropped, and the stream
is left after the line break. -/
theorem readLine_long_header (bufLen : Nat) (p : List Byte) (x : Byte) (q rest : List Byte)
    (hp : p.length = bufLen - 2) (hhead : p.head? = some GT) (hnlp : NL ∉ p) (hx : x ≠ NL)
    (hnlq : NL ∉ q) :
    readLine (p ++ x :: (q ++ NL :: rest)) bufLen =
      .ok { buf := p, c := some x, rest := rest } := by
  unfold readLine
  rw [readLoop_full (bufLen - 2) p [] x _ hnlp (by simp; omega)]
  simp only [List.nil_append, ge_iff_le]
  rw [if_pos (by omega), if_pos hhead]
  have hd : discardHeader (some x) (q ++ NL :: rest) = .ok rest := by
    unfold discardHeader
    rw [if_neg (by simpa using hx), skipToNewline_line q rest hnlq]
  simp [hd, readLineEnd]

/-- A header line of exactly the maximum of the line reader is returned
whole. -/
theorem readLine_full_header (bufLen : Nat) (line rest : List Byte)
    (hlen : line.length = bufLen - 2) (hhead : line.head? = some GT) (hnl : NL ∉ line) :
    readLine (line ++ NL :: rest) bufLen = .ok { buf := line, c := some NL, rest := rest } := by
  unfold readLine
  rw [readLoop_full (bufLen - 2) line [] NL rest hnl (by simp; omega)]
  simp only [List.nil_append, ge_iff_le]
  rw [if_pos (by omega), if_pos hhead]
  simp [discardHeader, readLineEnd]

/-- C11 (header truncation). Let `L = bufLen - 2` be the maximum of the line
reader (`bufLen` at least 3, as the buffer must hold a character, the
character read last and the NUL), and let a header line `hdr` (first byte
`>`, no line break inside) be followed by its line break and by `rest`. When the line
is longer than `L`, `readLine` returns exactly the first `L` bytes of the line
in the buffer, returns the byte of the line that follows them, drops the rest
of the line and leaves the stream right after the line break of the line, at
the first byte of `rest`. When the line has at most `L` bytes, it is returned
whole and the stream is left at `rest`. -/
theorem header_truncation (bufLen : Nat) (hdr rest : List Byte) (hbuf : 3 ≤ bufLen)
    (hhead : hdr.head? = some GT) (hnl : NL ∉ hdr) :
    (bufLen - 2 < hdr.length →
      readLine (hdr ++ NL :: rest) bufLen =
        .ok { buf := hdr.take (bufLen - 2), c := hdr[bufLen - 2]?, rest := rest }) ∧
    (hdr.length ≤ bufLen - 2 →
      readLine (hdr ++ NL :: rest) bufLen =
        .ok { buf := hdr, c := some NL, rest := rest }) := by
  constructor
  · intro hlong
    have hsplit : hdr = hdr.take (bufLen - 2) ++
        hdr[bufLen - 2] :: hdr.drop (bufLen - 2 + 1) := by
      rw [← List.drop_eq_getElem_cons hlong, List.take_append_drop]
    have hx : hdr[bufLen - 2] ∈ hdr := List.getElem_mem _
    have hget : hdr[bufLen - 2]? = some hdr[bufLen - 2] := List.getElem?_eq_getElem hlong
    have hcall := readLine_long_header bufLen (hdr.take (bufLen - 2)) hdr[bufLen - 2]
      (hdr.drop (bufLen - 2 + 1)) rest
      (by rw [List.length_take]; omega)
      (by
        cases hdr with
        | nil => simp at hhead
        | cons a l =>
          obtain ⟨k, hk⟩ : ∃ k, bufLen - 2 = k + 1 := ⟨bufLen - 3, by omega⟩
          rw [hk]
          simpa using hhead)
      (fun h => hnl (List.mem_of_mem_take h))
      (fun e => hnl (e ▸ hx))
      (fun h => hnl (List.mem_of_mem_drop h))
    rw [hget]
    have e : hdr ++ NL :: rest = hdr.take (bufLen - 2) ++
        hdr[bufLen - 2] :: (hdr.drop (bufLen - 2 + 1) ++ NL :: rest) := by
      conv_lhs => rw [hsplit]
      rw [List.append_assoc, List.cons_append]
    rw [e]
    exact hcall
  · intro hshort
    by_cases hlt : hdr.length < bufLen - 2
    · exact readLine_line bufLen hdr rest hnl hlt
    · exact readLine_full_header bufLen hdr rest (by omega) hhead hnl

/-- C11, with a buffer of 6 bytes (a maximum of 4): a header line of 7 bytes
is cut to its first 4 bytes and the next line starts at `xx`; a header line of
4 bytes is returned whole. -/
theorem header_truncation_witness :
    readLine ([62, 66, 67, 68, 69, 70, 71] ++ NL :: [120, 120]) 6 =
        .ok { buf := [62, 66, 67, 68], c := some 69, rest := [120, 120] } ∧
    readLine ([62, 66, 67, 68] ++ NL :: [120, 120]) 6 =
        .ok { buf := [62, 66, 67, 68], c := some NL, rest := [120, 120] } :=
  ⟨(header_truncation 6 [62, 66, 67, 68, 69, 70, 71] [120, 120] (by decide) (by decide)
      (by decide)).1 (by decide),
    (header_truncation 6 [62, 66, 67, 68] [120, 120] (by decide) (by decide)
      (by decide)).2 (by decide)⟩

/-! ## Cursor progress -/

theorem readLoop_split (lim : Nat) :
    ∀ (rest buf0 buf : List Byte) (c : Option Byte) (r : List Byte),
      readLoop lim buf0 rest = (buf, c, r) →
      ∃ p, buf = buf0 ++ p ∧ rest = p ++ (c.toList ++ r) := by
  intro rest
  induction rest with
  | nil =>
    intro buf0 buf c r h
    simp only [readLoop, Prod.mk.injEq] at h
    obtain ⟨rfl, rfl, rfl⟩ := h
    exact ⟨[], by simp, by simp⟩
  | cons x xs ih =>
    intro buf0 buf c r h
    rw [readLoop] at h
    split at h
    · obtain ⟨p, h1, h2⟩ := ih _ _ _ _ h
      exact ⟨x :: p, by rw [h1]; simp, by rw [h2]; simp⟩
    · simp only [Prod.mk.injEq] at h
      obtain ⟨rfl, rfl, rfl⟩ := h
      exact ⟨[], by simp, by simp⟩

theorem skipToNewline_split :
    ∀ (rest r : List Byte), skipToNewline rest = .ok r → ∃ p, rest = p ++ r := by
  intro rest
  induction rest with
  | nil => intro r h; simp [skipToNewline] at h
  | cons x xs ih =>
    intro r h
    rw [skipToNewline] at h
    split at h
    · simp only [Except.ok.injEq] at h
      exact ⟨[x], by rw [h]; rfl⟩
    · obtain ⟨p, hp⟩ := ih r h
      exact ⟨x :: p, by rw [hp]; rfl⟩

theorem discardHeader_split (c : Option Byte) (rest1 rest2 : List Byte)
    (h : discardHeader c rest1 = .ok rest2) : ∃ p, rest1 = p ++ rest2 := by
  unfold discardHeader at h
  split at h
  · simp only [Except.ok.injEq] at h
    exact ⟨[], by rw [h]; rfl⟩
  · exact skipToNewline_split _ _ h

/-- What `readLine` leaves unread is an end part of what was unread before,
and a buffer that starts with `>` was read from a stream that starts with
`>`. -/
theorem readLine_split (rest : List Byte) (bufLen : Nat) (ln : Line)
    (h : readLine rest bufLen = .ok ln) :
    (∃ p, rest = p ++ ln.rest) ∧ (bufHead ln.buf = GT → rest.head? = some GT) := by
  unfold readLine at h
  rcases hl : readLoop (bufLen - 2) [] rest with ⟨buf, c, rest1⟩
  rw [hl] at h
  simp only at h
  obtain ⟨p, hp1, hp2⟩ := readLoop_split _ _ _ _ _ _ hl
  simp only [List.nil_append] at hp1
  subst hp1
  have hheadp : bufHead buf = GT → rest.head? = some GT := by
    intro hb
    cases buf with
    | nil => simp [bufHead] at hb
    | cons a l =>
      simp only [bufHead, List.headD_cons] at hb
      rw [hp2, hb]; rfl
  by_cases h1 : buf.length ≥ bufLen - 2
  · rw [if_pos h1] at h
    by_cases h2 : buf.head? = some GT
    · rw [if_pos h2] at h
      cases hd : discardHeader c rest1 with
      | error e => rw [hd] at h; simp at h
      | ok rest2 =>
        rw [hd] at h
        simp only at h
        obtain ⟨rfl, _⟩ := readLineEnd_ok _ _ _ _ h
        obtain ⟨q, hq⟩ := discardHeader_split _ _ _ hd
        exact ⟨⟨buf ++ c.toList ++ q, by rw [hp2, hq]; simp⟩, hheadp⟩
    · rw [if_neg h2] at h
      obtain ⟨rfl, hne⟩ := readLineEnd_ok _ _ _ _ h
      cases c with
      | none => exact absurd ⟨rfl, by simp⟩ hne
      | some x =>
        refine ⟨⟨buf ++ [x], by rw [hp2]; simp⟩, ?_⟩
        intro hb
        simp only [Option.getD_some] at hb
        cases buf with
        | nil =>
          simp only [List.nil_append, bufHead, List.headD_cons] at hb
          rw [hp2, hb]; rfl
        | cons a l =>
          simp only [List.cons_append, bufHead, List.headD_cons] at hb
          rw [hp2, hb]; rfl
  · rw [if_neg h1] at h
    obtain ⟨rfl, _⟩ := readLineEnd_ok _ _ _ _ h
    exact ⟨⟨buf ++ c.toList, by rw [hp2]; simp⟩, hheadp⟩

theorem drop_ftell (fp : FILE) (pre : List Byte) (h : fp.data = pre ++ fp.rest) :
    fp.data.drop (ftell fp) = fp.rest := by
  unfold ftell
  rw [h]
  simp

/-- Inside a call: once a query is counted the string is not empty and the
recorded stream offset is at a byte `>`; once two are counted the recorded
string offset is inside the string and not at its start. So a block that is
returned is not empty, and the stream is left at its end or at a byte `>`. -/
theorem buildLoop_cursor :
    ∀ (fuel : Nat) (fp : FILE) (st : Locals) (r : Built) (block : List Byte),
      (∃ pre, fp.data = pre ++ fp.rest) →
      (1 ≤ st.querysRead → st.finalString ≠ [] ∧
        (fp.data.drop st.fileOffsetForLastQueryStart).head? = some GT) →
      (2 ≤ st.querysRead → 1 ≤ st.bufferOffsetForLastQueryStart ∧
        st.bufferOffsetForLastQueryStart ≤ st.finalString.length) →
      buildLoop fuel fp st = .ok r → r.str = some block →
      block ≠ [] ∧ (r.fp.rest = [] ∨ r.fp.rest.head? = some GT) ∧
        ∃ pre, r.fp.data = pre ++ r.fp.rest := by
  intro fuel
  induction fuel with
  | zero => intro fp st r block _ _ _ h; simp [buildLoop] at h
  | succ k ih =>
    intro fp st r block hS h1 h2 h hs
    obtain ⟨pre, hpre⟩ := hS
    rw [buildLoop] at h
    cases hl : readLine fp.rest 16384 with
    | error e => rw [hl] at h; simp at h
    | ok ln =>
      rw [hl] at h
      simp only at h
      obtain ⟨⟨p, hp⟩, hhead⟩ := readLine_split _ _ _ hl
      split at h
      · rename_i hcn
        have hrest := readLine_eof _ _ _ hl hcn
        split at h
        · rename_i hq
          simp only [Outcome.ok.injEq] at h
          rw [← h] at hs ⊢
          simp only [Option.some.injEq] at hs
          refine ⟨by rw [← hs]; exact (h1 (by omega)).1, Or.inl hrest, ?_⟩
          exact ⟨fp.data, by simp [hrest]⟩
        · simp only [Outcome.ok.injEq] at h
          rw [← h] at hs; simp at hs
      · rename_i hcn
        split at h
        · rename_i hov
          split at h
          · simp only [Outcome.ok.injEq] at h
            rw [← h] at hs ⊢
            simp only [Option.some.injEq] at hs
            obtain ⟨hb1, hb2⟩ := h2 (by omega)
            refine ⟨?_, Or.inr (h1 (by omega)).2, ?_⟩
            · rw [← hs]
              intro hnil
              have := congrArg List.length hnil
              simp only [List.length_take, List.length_nil] at this
              omega
            · exact ⟨fp.data.take st.fileOffsetForLastQueryStart, by simp [fseek]⟩
          · rename_i hh
            simp only [Outcome.ok.injEq] at h
            rw [← h] at hs ⊢
            simp only [Option.some.injEq] at hs
            have hdrop : (fseek { fp with rest := ln.rest } (ftell fp)).rest = fp.rest := by
              simp only [fseek]
              exact drop_ftell fp pre hpre
            refine ⟨by rw [← hs]; exact (h1 (by omega)).1, Or.inr ?_, ?_⟩
            · rw [hdrop]
              exact hhead (by simpa using hh)
            · exact ⟨pre, by rw [hdrop]; simpa [fseek] using hpre⟩
        · split at h
          · simp at h
          · refine ih _ _ r block ⟨pre ++ p, by simp only; rw [hpre, hp]; simp⟩ ?_ ?_ h hs
            · intro _
              refine ⟨by simp, ?_⟩
              simp only
              split
              · rename_i hh
                rw [drop_ftell fp pre hpre]
                exact hhead hh
              · rename_i hh
                have hq : 1 ≤ st.querysRead := by
                  rename_i hq0
                  simp only [if_neg hh] at hq0
                  exact hq0
                exact (h1 hq).2
            · simp only
              intro hq
              split
              · rename_i hh
                rw [if_pos hh] at hq
                have := (h1 (by omega)).1
                have hpos : 0 < st.finalString.length := List.length_pos.2 this
                exact ⟨hpos, by simp⟩
              · rename_i hh
                rw [if_neg hh] at hq
                obtain ⟨hb1, hb2⟩ := h2 hq
                exact ⟨hb1, by simp only [List.length_append]; omega⟩

/-- What holds of the cursor for every query source and every cursor
position: a call of `buildNewString` that returns a block returns a block that
is not empty, keeps the content of the stream, and leaves the cursor strictly
beyond the position it had before the call, either at the end of the source or
at a byte `>`. That byte need not be the first byte of a line (see
`midline_first_call`). The calls the coordinator repeats from that position
reach `NULL` or an exit of the process within one call more than there are
unread bytes. -/
theorem cursor_progress (src : List Byte) (pos : Nat) (r : Built) (block : List Byte)
    (hcall : buildNewString (fseek (fopen src) pos) = .ok r) (hstr : r.str = some block) :
    block ≠ [] ∧ r.fp.data = src ∧ pos < ftell r.fp ∧
      r.fp.rest = src.drop (ftell r.fp) ∧
      (r.fp.rest = [] ∨ r.fp.rest.head? = some GT) ∧
      blocksUntilNull ((src.drop pos).length + 1) (fseek (fopen src) pos) ≠ .diverge := by
  have hfp : (fseek (fopen src) pos).rest.length ≤ (fseek (fopen src) pos).data.length := by
    simp only [fseek, fopen, List.length_drop]; omega
  obtain ⟨hlt, hdata⟩ := buildNewString_progress _ r hfp hcall (by rw [hstr]; simp)
  obtain ⟨hne, hend, pre, hpre⟩ := buildLoop_cursor _ _ _ r block
    ⟨src.take pos, by simp [fseek, fopen]⟩ (by intro hq; simp at hq) (by intro hq; simp at hq)
    hcall hstr
  have hdata2 : r.fp.data = src := by rw [hdata]; rfl
  have hlen : (fseek (fopen src) pos).rest.length = src.length - pos := by
    simp [fseek, fopen]
  refine ⟨hne, hdata2, ?_, ?_, hend, ?_⟩
  · have hl := congrArg List.length hpre
    simp only [List.length_append, hdata2] at hl
    unfold ftell
    rw [hdata2]
    omega
  · rw [← hdata2]
    exact (drop_ftell r.fp pre hpre).symm
  · exact blocksUntilNull_returns _ _ hfp (by simp [fseek, fopen])

/-- The cursor at a source of two small records read from its start: the call
returns the whole source as a block and leaves the cursor at its end. -/
theorem cursor_progress_witness :
    ([62, 97, 10, 65, 10, 62, 98, 10] : List Byte) ≠ [] ∧
      (⟨[62, 97, 10, 65, 10, 62, 98, 10], []⟩ : FILE).data =
        [62, 97, 10, 65, 10, 62, 98, 10] ∧
      0 < ftell ⟨[62, 97, 10, 65, 10, 62, 98, 10], []⟩ ∧
      (⟨[62, 97, 10, 65, 10, 62, 98, 10], []⟩ : FILE).rest =
        ([62, 97, 10, 65, 10, 62, 98, 10] : List Byte).drop
          (ftell ⟨[62, 97, 10, 65, 10, 62, 98, 10], []⟩) ∧
      ((⟨[62, 97, 10, 65, 10, 62, 98, 10], []⟩ : FILE).rest = [] ∨
        (⟨[62, 97, 10, 65, 10, 62, 98, 10], []⟩ : FILE).rest.head? = some GT) ∧
      blocksUntilNull ((([62, 97, 10, 65, 10, 62, 98, 10] : List Byte).drop 0).length + 1)
        (fseek (fopen [62, 97, 10, 65, 10, 62, 98, 10]) 0) ≠ .diverge :=
  cursor_progress [62, 97, 10, 65, 10, 62, 98, 10] 0
    ⟨some [62, 97, 10, 65, 10, 62, 98, 10], 2, ⟨[62, 97, 10, 65, 10, 62, 98, 10], []⟩⟩
    [62, 97, 10, 65, 10, 62, 98, 10] (by decide) rfl

/-! ## A byte `>` inside an over-length line -/

end MpiBlast
